import Mathlib

/-!
Verification development for the prospectus-templating core.

The Python services are shallowly embedded: paragraph run texts become
`List Char` lists, nested input mappings become the `PyVal` inductive,
Python `Decimal` values become the exact scaled-integer type `Dec`, and
every service function is translated into an executable Lean definition.
-/

namespace PA

/-- Text is modelled as a list of characters (Python `str`). -/
abbrev Str := List Char

/-- Coerce a Lean string literal to the character-list model. -/
def str (s : String) : Str := s.data

/-- Python's default `str.strip` character class (ASCII whitespace). -/
def isWs (c : Char) : Bool :=
  c = ' ' || c = '\t' || c = '\n' || c = '\r' || c = '\x0b' || c = '\x0c'

/-- Python `str.strip()`: drop whitespace from both ends. -/
def pyStrip (l : Str) : Str :=
  ((l.dropWhile isWs).reverse.dropWhile isWs).reverse

/-- ASCII decimal digit test (`str.isdigit` on the characters we use). -/
def isDigit (c : Char) : Bool := '0' ≤ c ∧ c ≤ '9'

/-- The decimal digit character for `n % 10`. -/
def digitChar (n : ℕ) : Char :=
  match n % 10 with
  | 0 => '0' | 1 => '1' | 2 => '2' | 3 => '3' | 4 => '4'
  | 5 => '5' | 6 => '6' | 7 => '7' | 8 => '8' | _ => '9'

/-- Decimal representation, fuel-indexed so that it reduces structurally
(the fuel strictly dominates the digit count). -/
def natReprAux : ℕ → ℕ → Str
  | 0, _ => []
  | fuel + 1, n =>
    if n < 10 then [digitChar n]
    else natReprAux fuel (n / 10) ++ [digitChar (n % 10)]

/-- Decimal representation of a natural number, most significant digit first. -/
def natRepr (n : ℕ) : Str := natReprAux (n + 1) n

/-- Decimal representation of an integer (Python `str(int)`). -/
def intRepr (z : ℤ) : Str :=
  (if z < 0 then ['-'] else []) ++ natRepr z.natAbs

/-- Group a reversed digit list into blocks of three separated by `,`
(fuel-indexed; the fuel dominates the length). -/
def commaGroupRevAux : ℕ → Str → Str
  | 0, l => l
  | fuel + 1, l =>
    if l.length ≤ 3 then l
    else l.take 3 ++ ',' :: commaGroupRevAux fuel (l.drop 3)

/-- Group a reversed digit list into blocks of three separated by `,`. -/
def commaGroupRev (l : Str) : Str := commaGroupRevAux l.length l

/-- Python `f"{n:,}"` for a natural number. -/
def natCommas (n : ℕ) : Str :=
  (commaGroupRev (natRepr n).reverse).reverse

/-- Python `f"{z:,}"` for an integer. -/
def intCommas (z : ℤ) : Str :=
  (if z < 0 then ['-'] else []) ++ natCommas z.natAbs

/-- `e` least-significant decimal digits of `k`, least significant first. -/
def padDigitsRev : ℕ → ℕ → Str
  | 0, _ => []
  | e + 1, k => digitChar (k % 10) :: padDigitsRev e (k / 10)

/-!
## Python `Decimal` subset

`Dec` is an exact scaled integer: the value is `mant / 10 ^ exp`.  This is
the fragment of `decimal.Decimal` exercised by `normalization_service.py`
(construction from integers and plain numeric strings, integrality test,
`quantize` to two places with the default `ROUND_HALF_EVEN`, `normalize`,
`int()` truncation and fixed-point formatting).
-/

structure Dec where
  mant : ℤ
  exp : ℕ
  deriving DecidableEq, Repr

/-- `Decimal == Decimal.to_integral_value()`: the value is an integer. -/
def Dec.isIntegral (d : Dec) : Bool := d.mant % (10 : ℤ) ^ d.exp = 0

/-- Integer division of `a` by `b`, truncating toward zero (Python `int(Decimal)`). -/
def truncDiv (a : ℤ) (b : ℕ) : ℤ :=
  if a < 0 then -((a.natAbs / b : ℕ) : ℤ) else ((a.natAbs / b : ℕ) : ℤ)

/-- Python `int(d)` for a `Decimal`: truncation toward zero. -/
def Dec.intTrunc (d : Dec) : ℤ := truncDiv d.mant (10 ^ d.exp)

/-- Exact comparison of two `Dec` values (`float` comparison on exact values). -/
def Dec.ltb (a b : Dec) : Bool :=
  a.mant * (10 : ℤ) ^ b.exp < b.mant * (10 : ℤ) ^ a.exp

/-- Round `a / b` (with `b > 0`) to the nearest integer, ties to even
(`ROUND_HALF_EVEN`, the `decimal` default used by `quantize` and `:.2f`). -/
def roundHalfEven (a : ℤ) (b : ℕ) : ℤ :=
  let q := a.fdiv (b : ℤ)
  let r := a - q * (b : ℤ)
  if 2 * r < (b : ℤ) then q
  else if 2 * r > (b : ℤ) then q + 1
  else if q % 2 = 0 then q else q + 1

/-- The integer `c` with `d = c / 100` after rounding `d` to two decimal
places, ties to even (`Decimal.quantize(Decimal("1.00"))`). -/
def Dec.scale2 (d : Dec) : ℤ :=
  if d.exp ≤ 2 then d.mant * (10 : ℤ) ^ (2 - d.exp)
  else roundHalfEven d.mant (10 ^ (d.exp - 2))

/-- Python `f"{d:.2f}"` after `quantize` to two places: sign, integer part,
point, exactly two fraction digits. -/
def fmt2 (d : Dec) : Str :=
  let c := d.scale2
  (if d.mant < 0 then ['-'] else []) ++
    natRepr (c.natAbs / 100) ++ '.' :: (padDigitsRev 2 (c.natAbs % 100)).reverse

/-- Plain fixed-point rendering of a `Dec` (`f"{d:f}"`): sign, integer part
and, when `exp > 0`, a point followed by exactly `exp` fraction digits. -/
def renderPlain (d : Dec) : Str :=
  (if d.mant < 0 then ['-'] else []) ++
    natRepr (d.mant.natAbs / 10 ^ d.exp) ++
    (if d.exp = 0 then []
     else '.' :: (padDigitsRev d.exp (d.mant.natAbs % 10 ^ d.exp)).reverse)

/-- `Decimal.normalize()`, structurally recursive on the exponent. -/
def normalizeDecAux : ℤ → ℕ → Dec
  | m, 0 => ⟨m, 0⟩
  | m, e + 1 => if m % 10 = 0 then normalizeDecAux (m / 10) e else ⟨m, e + 1⟩

/-- `Decimal.normalize()` on the fragment we use: strip trailing zero digits
from the mantissa while the exponent is positive. -/
def normalizeDec (d : Dec) : Dec := normalizeDecAux d.mant d.exp

/-!
## `float(Decimal)` — conversion to the nearest IEEE binary64 value

`normalize_inputs` passes some parsed decimals through `float(...)`
before formatting; the nominal path then formats the double directly
(`f"AED \x7bnominal:.2f\x7d"`), so the binary rounding is observable
(`float("2.675")` is `2.674999…`, rendering as `2.67`).  Every finite
double is a terminating decimal, so the conversion returns its exact
value as a `Dec`: round the scaled fraction to a 53-bit integer, ties to
even.  Stated over the conversion's normal finite range — the repertoire
of the pipeline's currency and percentage amounts; gradual underflow
below `2^-1022` and overflow to infinity sit outside the embedded
domain. -/

/-- Round `a / b` (with `b > 0`) to the nearest natural, ties to even. -/
def rdivHE (a b : ℕ) : ℕ :=
  let q := a / b
  let r := a % b
  if 2 * r < b then q
  else if b < 2 * r then q + 1
  else if q % 2 = 0 then q else q + 1

/-- Least `u` with `t ≤ p * 2 ^ u` (fuel bounds the doublings). -/
def findScale : ℕ → ℕ → ℕ → ℕ
  | 0, _, _ => 0
  | fuel + 1, p, t => if t ≤ p then 0 else findScale fuel (2 * p) t + 1

/-- Least `v` with `p < t * 2 ^ v` (fuel bounds the doublings). -/
def findScaleDown : ℕ → ℕ → ℕ → ℕ
  | 0, _, _ => 0
  | fuel + 1, p, t => if p < t then 0 else findScaleDown fuel p (2 * t) + 1

/-- The nearest binary64 double to a `Dec`, as its exact decimal value:
scale `|value|` into `[2^52, 2^53)`, round half to even, and express the
resulting dyadic exactly (`n * 2 ^ -u = n * 5 ^ u / 10 ^ u`). -/
def floatOfDec (d : Dec) : Dec :=
  let p := d.mant.natAbs
  let q := (10 : ℕ) ^ d.exp
  if p = 0 then ⟨0, 0⟩
  else if p < 2 ^ 52 * q then
    let u := findScale (5 * (natRepr (2 ^ 52 * q)).length + 64) p (2 ^ 52 * q)
    let n := rdivHE (p * 2 ^ u) q
    ⟨if d.mant < 0 then -((n * 5 ^ u : ℕ) : ℤ) else ((n * 5 ^ u : ℕ) : ℤ), u⟩
  else if 2 ^ 53 * q ≤ p then
    let v := findScaleDown (5 * (natRepr p).length + 64) p (2 ^ 53 * q)
    let n := rdivHE p (q * 2 ^ v)
    ⟨if d.mant < 0 then -((n * 2 ^ v : ℕ) : ℤ) else ((n * 2 ^ v : ℕ) : ℤ), 0⟩
  else
    ⟨if d.mant < 0 then -((rdivHE p q : ℕ) : ℤ) else ((rdivHE p q : ℕ) : ℤ), 0⟩

/-!
## Numeric string parsing (`Decimal(cleaned)`)

Sign, optional integer digits, optional fraction, optional exponent — the
plain-number grammar of `decimal.Decimal` string construction (special
values such as `NaN`/`Infinity` are outside the embedded domain).
-/

/-- Fold a digit list (most significant first) into a natural number. -/
def digitsToNat (l : Str) : ℕ :=
  l.foldl (fun acc c => acc * 10 + (c.toNat - '0'.toNat)) 0

/-- Parse an optional exponent suffix `e±ddd`; `none` marks a syntax error. -/
def parseExpSuffix (l : Str) : Option ℤ :=
  match l with
  | [] => some 0
  | c :: rest =>
    if c = 'e' ∨ c = 'E' then
      let (sgn, ds) : (ℤ × Str) :=
        match rest with
        | '+' :: r => (1, r)
        | '-' :: r => (-1, r)
        | r => (1, r)
      if ds ≠ [] ∧ ds.all isDigit then some (sgn * digitsToNat ds) else none
    else none

/-- Build a `Dec` from sign, digit strings and exponent. -/
def mkDec (neg : Bool) (intDs fracDs : Str) (ex : ℤ) : Dec :=
  let m : ℤ := digitsToNat (intDs ++ fracDs)
  let m := if neg then -m else m
  let net : ℤ := (fracDs.length : ℤ) - ex
  if h : 0 ≤ net then ⟨m, net.toNat⟩ else ⟨m * (10 : ℤ) ^ (-net).toNat, 0⟩

/-- Parse a plain decimal numeral (`Decimal(s)` on the plain-number grammar). -/
def parseDecStr (l : Str) : Option Dec :=
  let (neg, body) : (Bool × Str) :=
    match l with
    | '+' :: r => (false, r)
    | '-' :: r => (true, r)
    | r => (false, r)
  let intDs := body.takeWhile isDigit
  let rest := body.dropWhile isDigit
  match rest with
  | '.' :: afterPoint =>
    let fracDs := afterPoint.takeWhile isDigit
    let rest2 := afterPoint.dropWhile isDigit
    if intDs = [] ∧ fracDs = [] then none
    else (parseExpSuffix rest2).map (mkDec neg intDs fracDs)
  | _ =>
    if intDs = [] then none
    else (parseExpSuffix rest).map (mkDec neg intDs [])

/-!
## Nested input values (`PyVal`)

`RawInputs` is a nested mapping from string keys to values; values are
strings, numbers, `None` or nested mappings.
-/

inductive PyVal where
  | pnone : PyVal
  | pstr : Str → PyVal
  | pint : ℤ → PyVal
  | pdec : Dec → PyVal
  | pdict : List (Str × PyVal) → PyVal

/-- `value is None`. -/
def PyVal.isNone : PyVal → Bool
  | .pnone => true
  | _ => false

/-- First-match association lookup (Python dict indexing; keys are unique). -/
def lookupStr : List (Str × PyVal) → Str → Option PyVal
  | [], _ => none
  | (k, v) :: rest, key => if k = key then some v else lookupStr rest key

def lbrace : Char := Char.ofNat 123
def rbrace : Char := Char.ofNat 125

mutual

/-- Python `repr` for the values that can sit inside a dict (used only by
`str(dict)`; its exact shape never matters beyond non-emptiness). -/
def pyRepr : PyVal → Str
  | .pnone => str "None"
  | .pstr s => '\'' :: s ++ ['\'']
  | .pint z => intRepr z
  | .pdec d => renderPlain d
  | .pdict entries => lbrace :: pyReprEntries entries ++ [rbrace]

/-- Comma-separated `repr` of dict entries. -/
def pyReprEntries : List (Str × PyVal) → Str
  | [] => []
  | [(k, v)] => '\'' :: k ++ '\'' :: ':' :: ' ' :: pyRepr v
  | (k, v) :: rest =>
      '\'' :: k ++ '\'' :: ':' :: ' ' :: pyRepr v ++ ',' :: ' ' :: pyReprEntries rest

end

/-- Python `str(value)` coercion. -/
def pyStr : PyVal → Str
  | .pnone => str "None"
  | .pstr s => s
  | .pint z => intRepr z
  | .pdec d => renderPlain d
  | .pdict entries => lbrace :: pyReprEntries entries ++ [rbrace]

/-- Split a string on a separator character (Python `s.split(".")`,
which yields `[""]` on the empty string). -/
def splitOnChar (sep : Char) (l : Str) : List Str :=
  match l with
  | [] => [[]]
  | c :: rest =>
    let tail := splitOnChar sep rest
    if c = sep then [] :: tail
    else
      match tail with
      | [] => [[c]]
      | t :: ts => (c :: t) :: ts

/-!
## `normalization_service.py`
-/

/-- `_normalize_decimal`: accept `Decimal`, `int`, `float` and comma-grouped
numeric strings; `none` models the raised `ValueError`/`InvalidOperation`. -/
def normalizeDecimal : PyVal → Option Dec
  | .pdec d => some d
  | .pint z => some ⟨z, 0⟩
  | .pstr s =>
    let cleaned := (pyStrip s).filter (fun c => c ≠ ',')
    if cleaned = [] then none else parseDecStr cleaned
  | _ => none

/-- `format_int_commas(n)` = `f"{int(n):,}"`. -/
def formatIntCommas (n : ℤ) : Str := intCommas n

/-- `format_currency_aed`: integral amounts render as `AED {int(d):,}` with
no decimals; non-integral amounts render comma-grouped to two places with
trailing zeros (then a trailing point) stripped. -/
def formatCurrencyAed (d : Dec) : Str :=
  if d.isIntegral then str "AED " ++ intCommas d.intTrunc
  else
    let c := d.scale2
    let formatted :=
      (if d.mant < 0 then ['-'] else []) ++
        natCommas (c.natAbs / 100) ++ '.' :: (padDigitsRev 2 (c.natAbs % 100)).reverse
    let formatted := (formatted.reverse.dropWhile (fun c => c = '0')).reverse
    let formatted := (formatted.reverse.dropWhile (fun c => c = '.')).reverse
    str "AED " ++ formatted

/-- `format_price_range_aed(low, high)`: both bounds quantized to two places
and joined by the separator literal exactly as it appears in the source file
(the bytes of a double-encoded en dash, which read as `â€“`). -/
def formatPriceRangeAed (low high : Dec) : Str :=
  str "AED " ++ fmt2 low ++ str " â€“ AED " ++ fmt2 high

/-- `format_percent(p)`: integral values as `str(int(p))`, others as the
plain rendering of `p.normalize()`, followed by `%`. -/
def formatPercent (d : Dec) : Str :=
  (if d.isIntegral then intRepr d.intTrunc else renderPlain (normalizeDec d)) ++ ['%']

/-- `_deep_get(data, path)`: walk the dotted path through nested mappings,
returning `None` when a segment is absent or a level is not a mapping. -/
def deepGetParts : PyVal → List Str → PyVal
  | cur, [] => cur
  | .pdict entries, p :: ps =>
    match lookupStr entries p with
    | some v => deepGetParts v ps
    | none => .pnone
  | _, _ :: _ => .pnone

def deepGet (data : PyVal) (path : Str) : PyVal :=
  deepGetParts data (splitOnChar '.' path)

/-- The inline missing marker `[[MISSING: <path>]]`. -/
def missingMarker (path : Str) : Str :=
  str "[[MISSING: " ++ path ++ str "]]"

/-- `_render_or_missing`: the rendered value, or the missing marker (also
reporting the path) when the value is `None` or strips to empty. -/
def renderOrMissing (path : Str) (value : Option Str) : Str × List Str :=
  match value with
  | none => (missingMarker path, [path])
  | some v => if pyStrip v = [] then (missingMarker path, [path]) else (v, [])

/-- Insertion sort on strings by code points (Python `sorted` on `str`). -/
def strLeb : Str → Str → Bool
  | [], _ => true
  | _ :: _, [] => false
  | a :: as, b :: bs =>
    if a.toNat < b.toNat then true
    else if a.toNat > b.toNat then false
    else strLeb as bs

def insertSorted (x : Str) : List Str → List Str
  | [] => [x]
  | y :: ys => if strLeb x y then x :: y :: ys else y :: insertSorted x ys

def sortStrs (l : List Str) : List Str := l.foldr insertSorted []

/-- Deduplicate while keeping one copy of each element (models the `set`
accumulator: `sorted(set(xs))` = `sortStrs (dedup xs)`). -/
def dedupStrs : List Str → List Str
  | [] => []
  | x :: xs => if xs.contains x then dedupStrs xs else x :: dedupStrs xs

/-- The rendered text for `issuer.name` (lines 104-106). -/
def issuerNameText (raw : PyVal) : Option Str :=
  let issuerVal := deepGet raw (str "issuer.name")
  if issuerVal.isNone then none else some (pyStrip (pyStr issuerVal))

/-- The rendered text for `offer.offer_shares` (lines 108-117). -/
def offerSharesText (raw : PyVal) : Option Str :=
  let sharesVal := deepGet raw (str "offer.offer_shares")
  if sharesVal.isNone || pyStrip (pyStr sharesVal) = [] then none
  else
    match normalizeDecimal sharesVal with
    | none => none
    | some d =>
      let shares := d.intTrunc
      if shares > 0 then some (formatIntCommas shares) else none

/-- The rendered text for `offer.price_range` (lines 122-134): present only
when both bounds are present, both parse, and `low < high`. -/
def priceRangeText (raw : PyVal) : Option Str :=
  let lowVal := deepGet raw (str "offer.price_range_low_aed")
  let highVal := deepGet raw (str "offer.price_range_high_aed")
  if lowVal.isNone || highVal.isNone then none
  else
    match normalizeDecimal lowVal, normalizeDecimal highVal with
    | some low, some high =>
      if low.ltb high then some (formatPriceRangeAed low high) else none
    | _, _ => none

/-- The rendered text for `offer.nominal_value_per_share` (lines 140-148):
`nominal = float(_normalize_decimal(value))` then the direct two-place
formatting of that double, so the binary value is what gets rounded. -/
def nominalText (raw : PyVal) : Option Str :=
  let nominalVal := deepGet raw (str "offer.nominal_value_per_share_aed")
  if nominalVal.isNone || pyStrip (pyStr nominalVal) = [] then none
  else
    match normalizeDecimal nominalVal with
    | none => none
    | some d => some (str "AED " ++ fmt2 (floatOfDec d))

/-- The rendered text for `offer.percentage_offered` (lines 153-161). -/
def percentText (raw : PyVal) : Option Str :=
  let pctVal := deepGet raw (str "offer.percentage_offered")
  if pctVal.isNone || pyStrip (pyStr pctVal) = [] then none
  else
    match normalizeDecimal pctVal with
    | none => none
    | some d => some (formatPercent d)

/-- The per-field rendering pipeline of `normalize_inputs` (lines 100-176):
the flat rendered-field map in insertion order, plus the sorted list of
missing field paths.  The `normalized_inputs` mutation of the same lines is
modelled separately on an explicit heap (see `heapNormalizeInputs`). -/
def normalizeRenderedMap (raw : PyVal) : List (Str × Str) × List Str :=
  let issuerRM := renderOrMissing (str "issuer.name") (issuerNameText raw)
  let sharesRM := renderOrMissing (str "offer.offer_shares") (offerSharesText raw)
  let rangeRM := renderOrMissing (str "offer.price_range") (priceRangeText raw)
  let nominalRM :=
    renderOrMissing (str "offer.nominal_value_per_share") (nominalText raw)
  let pctRM := renderOrMissing (str "offer.percentage_offered") (percentText raw)
  let wordsRM := renderOrMissing (str "offer.offer_shares_words") none
  let renderedMap :=
    [(str "issuer.name", issuerRM.1),
     (str "offer.offer_shares", sharesRM.1),
     (str "offer.price_range", rangeRM.1),
     (str "offer.nominal_value_per_share", nominalRM.1),
     (str "offer.percentage_offered", pctRM.1),
     (str "offer.offer_shares_words", wordsRM.1),
     (str "offer.size", sharesRM.1)]
  (renderedMap,
   sortStrs (dedupStrs (issuerRM.2 ++ sharesRM.2 ++ rangeRM.2 ++ nominalRM.2 ++
     pctRM.2 ++ wordsRM.2)))

/-- `normalize_inputs` rejects every schema id other than `talabat_v1`
before doing any work; on the supported id it produces the rendered field
map and missing list of `normalizeRenderedMap`. -/
def normalizeInputs (schemaId : Str) (raw : PyVal) :
    Except Str (List (Str × Str) × List Str) :=
  if schemaId = str "talabat_v1" then .ok (normalizeRenderedMap raw)
  else .error (str "Unsupported schema_id: " ++ schemaId)

/-- Rendered-map lookup (Python dict indexing on string keys). -/
def lookupRendered : List (Str × Str) → Str → Option Str
  | [], _ => none
  | (k, v) :: rest, key => if k = key then some v else lookupRendered rest key

/-- The rendered value of one field of `normalize_inputs`, or `none` when
the schema id is rejected. -/
def renderedField (schemaId : Str) (raw : PyVal) (path : Str) : Option Str :=
  match normalizeInputs schemaId raw with
  | .ok (renderedMap, _) => lookupRendered renderedMap path
  | .error _ => none

/-- Python `s.rstrip(c)`: drop copies of `c` from the right end. -/
def rstripChar (c : Char) (l : Str) : Str :=
  (l.reverse.dropWhile (fun x => x = c)).reverse

/-- Rendering rule stated by the spec for percentages: the decimal
representation with trailing fractional zeros stripped (and then a bare
trailing point stripped, so whole numbers keep no decimal point),
followed by `%`. -/
def specPercentRender (d : Dec) : Str :=
  let f := renderPlain d
  (if '.' ∈ f then rstripChar '.' (rstripChar '0' f) else f) ++ ['%']

/-!
## Run-span rewriting (`placeholder_service._replace_in_runs` and
`parameterization_service._replace_match_in_runs`)

A paragraph is its list of run texts.  A regex search on the concatenated
text is abstracted as a `Find` function returning a match span; the
placeholder token pattern is implemented concretely below.
-/

/-- A match span oracle for the compiled pattern: the span of the first
match in the text, if any. -/
abbrev Find := Str → Option (ℕ × ℕ)

/-- A pattern's searches are sound: returned spans are nonempty and lie
inside the text (true of every pattern compiled in this code base, none of
which can match the empty string). -/
def ValidFind (find : Find) : Prop :=
  ∀ t s e, find t = some (s, e) → s < e ∧ e ≤ t.length

/-- `run_ranges`: the character interval of each run, walking a cursor. -/
def runRanges (c : ℕ) : List Str → List (ℕ × ℕ)
  | [] => []
  | t :: ts => (c, c + t.length) :: runRanges (c + t.length) ts

/-- `overlap_indexes`: indexes of runs whose interval overlaps the span
(the list comprehension over `enumerate(run_ranges)`). -/
def overlapIdxsAux (s e : ℕ) : ℕ → List (ℕ × ℕ) → List ℕ
  | _, [] => []
  | i, (st, en) :: rest =>
    if st < e ∧ en > s then i :: overlapIdxsAux s e (i + 1) rest
    else overlapIdxsAux s e (i + 1) rest

def overlapIdxs (ranges : List (ℕ × ℕ)) (s e : ℕ) : List ℕ :=
  overlapIdxsAux s e 0 ranges

/-- The run updates of the loop body once the overlap is known (lines
59-73 / 169-183): write the prefix plus replacement into the first
overlapping run, blank the interior runs, and put the suffix into the last
(collapsing when only one run overlaps). -/
def spliceCore (runs : List Str) (ranges : List (ℕ × ℕ)) (overlap : List ℕ)
    (firstIdx : ℕ) (s e : ℕ) (r : Str) : List Str :=
  let lastIdx := overlap.getLastD firstIdx
  let firstStart := ((ranges.get? firstIdx).map Prod.fst).getD 0
  let lastStart := ((ranges.get? lastIdx).map Prod.fst).getD 0
  let firstText := (runs.get? firstIdx).getD []
  let lastText := (runs.get? lastIdx).getD []
  let pre := firstText.take (s - firstStart)
  let suf := lastText.drop (e - lastStart)
  if lastIdx ≠ firstIdx then
    let runs1 := runs.set firstIdx (pre ++ r)
    let runs2 := ((overlap.drop 1).dropLast).foldl (fun acc i => acc.set i []) runs1
    runs2.set lastIdx suf
  else
    runs.set firstIdx (pre ++ r ++ suf)

/-- One splice of the loop body (lines 49-73 / 160-183); `none` models the
`if not overlap_indexes` exit. -/
def spliceRuns (runs : List Str) (s e : ℕ) (r : Str) : Option (List Str) :=
  let ranges := runRanges 0 runs
  let overlap := overlapIdxs ranges s e
  match overlap with
  | [] => none
  | firstIdx :: _ => some (spliceCore runs ranges overlap firstIdx s e r)

/-- One iteration of the rewrite loop: search the concatenated text, then
splice; `none` models both loop exits (no match / no overlap). -/
def rewriteStep (find : Find) (r : Str) (runs : List Str) : Option (List Str) :=
  match find runs.flatten with
  | none => none
  | some (s, e) => spliceRuns runs s e r

/-- The rewrite loop, fuel-indexed (the Python loop is `while True`; every
theorem below holds for every fuel, and the termination analysis bounds the
fuel actually needed). -/
def rewriteLoop (find : Find) (r : Str) : ℕ → List Str → List Str
  | 0, runs => runs
  | fuel + 1, runs =>
    match rewriteStep find r runs with
    | none => runs
    | some runs' => rewriteLoop find r fuel runs'

/-- The same loop on the flat text: what "the original text with every
matched span replaced" means, span by span. -/
def textStep (find : Find) (r : Str) (t : Str) : Option Str :=
  (find t).map (fun se => t.take se.1 ++ r ++ t.drop se.2)

def textLoop (find : Find) (r : Str) : ℕ → Str → Str
  | 0, t => t
  | fuel + 1, t =>
    match textStep find r t with
    | none => t
    | some t' => textLoop find r fuel t'

/-- Reference description of the tail of a multi-run splice: blank the runs
fully covered past the first, and drop the consumed prefix of the run in
which the span ends. -/
def blankUntil (e' : ℕ) : List Str → List Str
  | [] => []
  | t :: ts => if e' ≤ t.length then t.drop e' :: ts else [] :: blankUntil (e' - t.length) ts

/-- Number of runs whose start lies strictly before offset `e'`. -/
def coveredCount : List Str → ℕ → ℕ
  | [], _ => 0
  | t :: ts, e' => if 0 < e' then 1 + coveredCount ts (e' - t.length) else 0

/-- Literal-substring searcher (the compiled pattern of an escaped literal):
the span of the leftmost occurrence. -/
def findSubAux (pat : Str) : ℕ → Str → Option (ℕ × ℕ)
  | _, [] => none
  | i, c :: rest =>
    if pat.isPrefixOf (c :: rest) then some (i, i + pat.length)
    else findSubAux pat (i + 1) rest

def findSub (pat : Str) : Find := fun t => findSubAux pat 0 t

/-!
## The placeholder token pattern and `_resolve_path`
-/

/-- Characters allowed in a placeholder path: `[a-zA-Z0-9_.]`. -/
def isPathChar (c : Char) : Bool :=
  ('a' ≤ c && c ≤ 'z') || ('A' ≤ c && c ≤ 'Z') || ('0' ≤ c && c ≤ '9') ||
    c = '_' || c = '.'

/-- Match the token pattern at the head of the text: two opening braces,
optional whitespace, a nonempty path, optional whitespace, two closing
braces.  The character classes are pairwise disjoint, so the regex match is
deterministic with no backtracking; returns path and match length. -/
def tokenAt (l : Str) : Option (Str × ℕ) :=
  if l.take 2 = [lbrace, lbrace] then
    if ((l.drop 2).dropWhile isWs).takeWhile isPathChar = [] then none
    else if ((((l.drop 2).dropWhile isWs).dropWhile isPathChar).dropWhile isWs).take 2 =
        [rbrace, rbrace] then
      some (((l.drop 2).dropWhile isWs).takeWhile isPathChar,
        2 + ((l.drop 2).takeWhile isWs).length +
          (((l.drop 2).dropWhile isWs).takeWhile isPathChar).length +
          ((((l.drop 2).dropWhile isWs).dropWhile isPathChar).takeWhile isWs).length + 2)
    else none
  else none

/-- `PLACEHOLDER_PATTERN.search`: leftmost token match as (start, path, end). -/
def findTokenAux : ℕ → Str → Option (ℕ × Str × ℕ)
  | _, [] => none
  | i, c :: rest =>
    match tokenAt (c :: rest) with
    | some (path, len) => some (i, path, i + len)
    | none => findTokenAux (i + 1) rest

def findToken (t : Str) : Option (ℕ × Str × ℕ) := findTokenAux 0 t

/-- `_resolve_path`, the loop over dotted-path segments with its
post-loop coercion checks. -/
def resolvePathGo : PyVal → List Str → Str → Str
  | cur, [], path =>
    if cur.isNone then missingMarker path
    else
      let text := pyStrip (pyStr cur)
      if text = [] then missingMarker path else text
  | .pdict entries, p :: ps, path =>
    match lookupStr entries p with
    | some v => resolvePathGo v ps path
    | none => missingMarker path
  | _, _ :: _, path => missingMarker path

def resolvePath (data : PyVal) (path : Str) : Str :=
  resolvePathGo data (splitOnChar '.' path) path

/-- Spec-side description of resolution: walk the dotted path through
nested mappings (`none` as soon as a segment is absent or a level is not a
mapping), then apply the null/empty rules to the final value. -/
def walkPath : PyVal → List Str → Option PyVal
  | cur, [] => some cur
  | .pdict entries, p :: ps => (lookupStr entries p).bind (fun v => walkPath v ps)
  | _, _ :: _ => none

/-- Spec-side resolution: the stripped coercion of the resolved value when
every segment is present and the coerced string is non-empty; otherwise the
inline missing marker. -/
def resolveSpec (data : PyVal) (path : Str) : Str :=
  match walkPath data (splitOnChar '.' path) with
  | none => missingMarker path
  | some v =>
    if v.isNone then missingMarker path
    else if pyStrip (pyStr v) = [] then missingMarker path
    else pyStrip (pyStr v)

/-- `missing_fields.add(path)` on a set modelled as a duplicate-free list. -/
def addMissing (missing : List Str) (path : Str) : List Str :=
  if missing.contains path then missing else missing ++ [path]

/-- One iteration of `_replace_in_runs`: find the next token, resolve its
path (recording the path if the replacement carries the missing prefix),
then splice.  The first component is `none` on either loop exit; the second
is the updated missing set (updated even on the no-overlap exit, exactly as
in the source). -/
def prStep (inputs : PyVal) (runs : List Str) (missing : List Str) :
    Option (List Str) × List Str :=
  match findToken runs.flatten with
  | none => (none, missing)
  | some (s, path, e) =>
    match spliceRuns runs s e (resolvePath inputs path) with
    | none =>
      (none, if (str "[[MISSING:").isPrefixOf (resolvePath inputs path) then
        addMissing missing path else missing)
    | some runs' =>
      (some runs', if (str "[[MISSING:").isPrefixOf (resolvePath inputs path) then
        addMissing missing path else missing)

/-- The `_replace_in_runs` loop, fuel-indexed. -/
def prLoop (inputs : PyVal) : ℕ → List Str → List Str → List Str × List Str
  | 0, runs, missing => (runs, missing)
  | fuel + 1, runs, missing =>
    match prStep inputs runs missing with
    | (none, m) => (runs, m)
    | (some runs', m) => prLoop inputs fuel runs' m

/-- Count of opening-brace characters, the termination measure. -/
def countBrace (l : Str) : ℕ := l.count lbrace

/-!
## `parameterization_service._apply_rule` and
`parameterize_template_from_source`

A document is abstracted as the list of blocks the container iteration
yields: each block is its location path paired with its paragraph's run
texts.  A replacement rule keeps its regex machinery abstract — a first
match oracle for the union of its patterns (used by the replacement
loop) and a total match counter (the summed `_count_pattern_matches`) —
together with the optional `requires_context` test and the placeholder
text.
-/

abbrev Block := Str × List Str

structure RuleM where
  find : Find
  countM : Str → ℕ
  hasCtx : Bool
  ctx : Str → Bool
  placeholder : Str

/-- The allowed-location test of `_apply_rule` lines 259-262: the
location equals an allowed path or extends it by a `/` component. -/
def locAllowed (allowed : List Str) (loc : Str) : Bool :=
  allowed.any (fun a => loc == a || (a ++ str "/").isPrefixOf loc)

/-- `_replace_match_in_runs`: repeat match-and-splice, counting
replacements, until no match (or a non-overlapping span) stops the
loop. -/
def replaceCountLoop (find : Find) (r : Str) : ℕ → List Str → List Str × ℕ
  | 0, runs => (runs, 0)
  | fuel + 1, runs =>
    match rewriteStep find r runs with
    | none => (runs, 0)
    | some runs1 =>
      ((replaceCountLoop find r fuel runs1).1,
       (replaceCountLoop find r fuel runs1).2 + 1)

/-- One block of `_apply_rule` (lines 237-272): the context gate, the
found count, the allowed-location gate — applied only when the allowed
set is nonempty, with outside matches booked as skipped — then the
replacement loop.  Result: new runs, found, replaced and skipped
contributions of this block. -/
def applyRuleBlock (ru : RuleM) (allowed : List Str) (fuel : ℕ)
    (loc : Str) (runs : List Str) : List Str × ℕ × ℕ × ℕ :=
  if ru.hasCtx && !(ru.ctx runs.flatten) then (runs, 0, 0, 0)
  else if ru.countM runs.flatten = 0 then (runs, 0, 0, 0)
  else if !(allowed.isEmpty) && !(locAllowed allowed loc) then
    (runs, ru.countM runs.flatten, 0, ru.countM runs.flatten)
  else
    ((replaceCountLoop ru.find ru.placeholder fuel runs).1,
     ru.countM runs.flatten,
     (replaceCountLoop ru.find ru.placeholder fuel runs).2, 0)

/-- `_apply_rule` over the whole block list: the mutated document plus
the rule report counts (found, replaced, skipped). -/
def applyRule (ru : RuleM) (allowed : List Str) (fuel : ℕ) :
    List Block → List Block × ℕ × ℕ × ℕ
  | [] => ([], 0, 0, 0)
  | b :: rest =>
    ((b.1, (applyRuleBlock ru allowed fuel b.1 b.2).1) ::
        (applyRule ru allowed fuel rest).1,
     (applyRuleBlock ru allowed fuel b.1 b.2).2.1 +
        (applyRule ru allowed fuel rest).2.1,
     (applyRuleBlock ru allowed fuel b.1 b.2).2.2.1 +
        (applyRule ru allowed fuel rest).2.2.1,
     (applyRuleBlock ru allowed fuel b.1 b.2).2.2.2 +
        (applyRule ru allowed fuel rest).2.2.2)

/-- The skipped total the claim describes: every match found in a
context-passing block whose location is outside the allowed set. -/
def skippedSpec (ru : RuleM) (allowed : List Str) : List Block → ℕ
  | [] => 0
  | b :: rest =>
    (if (ru.hasCtx = false ∨ ru.ctx b.2.flatten = true) ∧
        ru.countM b.2.flatten ≠ 0 ∧ locAllowed allowed b.1 = false then
      ru.countM b.2.flatten
    else 0) + skippedSpec ru allowed rest

/-- The literal error message of `parameterize_template_from_source`
lines 494-497. -/
def noPlaceholdersMsg : Str :=
  str "No placeholders were inserted. This is likely a static prospectus with unmatched patterns for the provided inputs."

/-- The error message of line 521. -/
def baseNotFoundMsg (tid : ℕ) : Str :=
  str "Base template not found: " ++ natRepr tid

/-- The rule loop of lines 469-476: apply each (field, rule) pair in
turn to the live document, overwriting that field's entry of the report
map (a function from field name to replaced count). -/
def runRules (allowed : List Str) (fuel : ℕ) :
    List (Str × RuleM) → List Block → (Str → ℕ) → List Block × (Str → ℕ)
  | [], doc, rep => (doc, rep)
  | q :: rest, doc, rep =>
    runRules allowed fuel rest (applyRule q.2 allowed fuel doc).1
      (fun x => if x = q.1 then (applyRule q.2 allowed fuel doc).2.2.1 else rep x)

/-- Sum of each rule's replaced count over the live document (each rule
sees the previous rules' splices). -/
def rulesReplacedSum (allowed : List Str) (fuel : ℕ) :
    List (Str × RuleM) → List Block → ℕ
  | [], _ => 0
  | q :: rest, doc =>
    (applyRule q.2 allowed fuel doc).2.2.1 +
      rulesReplacedSum allowed fuel rest (applyRule q.2 allowed fuel doc).1

inductive ParamOutcome where
  | failed : Str → ParamOutcome
  | draftReport : ℕ → ParamOutcome
  | savedTemplate : ℕ → List Block → ParamOutcome

/-- `parameterize_template_from_source` from rule application onward
(lines 467-529; file and database effects abstracted into the outcome):
the zero-placeholder guard precedes the dry-run exit, the base-template
lookup and the save, so a zero total raises before anything is
produced. -/
def parameterizeCore (fields : List Str) (rules : List (Str × RuleM))
    (allowed : List Str) (fuel : ℕ) (doc : List Block)
    (dryRun baseFound : Bool) (tid : ℕ) : ParamOutcome :=
  if (fields.map (runRules allowed fuel rules doc (fun _ => 0)).2).sum = 0 then
    .failed noPlaceholdersMsg
  else if dryRun then
    .draftReport (fields.map (runRules allowed fuel rules doc (fun _ => 0)).2).sum
  else if baseFound = false then
    .failed (baseNotFoundMsg tid)
  else
    .savedTemplate
      (fields.map (runRules allowed fuel rules doc (fun _ => 0)).2).sum
      (runRules allowed fuel rules doc (fun _ => 0)).1

/-- A concrete rule (literal pattern `ab`, placeholder `X`, one counted
match, no context requirement) for exercising the parameterizer on
concrete documents. -/
def demoRule : RuleM :=
  { find := findSub (str "ab"),
    countM := fun t => if (findSub (str "ab") t).isSome then 1 else 0,
    hasCtx := false,
    ctx := fun _ => true,
    placeholder := str "X" }

/-!
## `prospectus_analysis_service._classify_block`

The four regex searches are implemented as concrete scanners, including
the backtracking the patterns require; texts are ASCII (the documents'
repertoire), where Python `str.lower` is the per-character lowercase
map and `\w` is alphanumeric-or-underscore.
-/

def isWordChar (c : Char) : Bool := c.isAlphanum || c = '_'

def lowerStr (l : Str) : Str := l.map Char.toLower

/-- Substring test (Python `needle in haystack`). -/
def containsSub (needle haystack : Str) : Bool :=
  (findSub needle haystack).isSome

/-- Count of leading ASCII digits, with the remainder. -/
def takeDigits : Str → ℕ × Str
  | [] => (0, [])
  | c :: cs =>
    if isDigit c then ((takeDigits cs).1 + 1, (takeDigits cs).2)
    else (0, c :: cs)

/-- Consume exactly `n` digits. -/
def digitsN : ℕ → Str → Option Str
  | 0, r => some r
  | _ + 1, [] => none
  | n + 1, c :: cs => if isDigit c then digitsN n cs else none

/-- Word boundary just after a digit: end of text or a non-word
character next. -/
def boundAfterDigit : Str → Bool
  | [] => true
  | c :: _ => !isWordChar c

/-- Tail of `PERCENT_PATTERN` after the digits: a percent sign and then
a boundary — the percent sign is a non-word character, so the final
boundary demands a word character right after it. -/
def pctEnd : Str → Bool
  | c :: c2 :: _ => c == '%' && isWordChar c2
  | _ => false

/-- One-position match of `PERCENT_PATTERN` (digits, optional fraction
with backtracking to the empty option, percent, boundary). -/
def percentFrom (s : Str) : Bool :=
  (takeDigits s).1 != 0 &&
    (match (takeDigits s).2 with
     | '.' :: r2 =>
       ((takeDigits r2).1 != 0 && pctEnd (takeDigits r2).2) || pctEnd ('.' :: r2)
     | r => pctEnd r)

/-- Every search position of a text, with the character preceding it. -/
def posWithPrev : Option Char → Str → List (Option Char × Str)
  | prev, [] => [(prev, [])]
  | prev, c :: cs => (prev, c :: cs) :: posWithPrev (some c) cs

/-- Word boundary before a word character: start of text or a non-word
character before. -/
def prevNonWord : Option Char → Bool
  | none => true
  | some c => !isWordChar c

/-- `PERCENT_PATTERN.search(text)`. -/
def searchPercent (t : Str) : Bool :=
  (posWithPrev none t).any (fun pr => prevNonWord pr.1 && percentFrom pr.2)

/-- Count of leading whitespace characters, with the remainder. -/
def takeWs : Str → ℕ × Str
  | [] => (0, [])
  | c :: cs =>
    if isWs c then ((takeWs cs).1 + 1, (takeWs cs).2) else (0, c :: cs)

/-- Optional fraction then the trailing boundary, backtracking to the
empty option when the fraction's boundary fails. -/
def fracOptEnd : Str → Bool
  | '.' :: r2 =>
    ((takeDigits r2).1 != 0 && boundAfterDigit (takeDigits r2).2) ||
      boundAfterDigit ('.' :: r2)
  | r => boundAfterDigit r

/-- Zero or more comma-plus-three-digit groups, then the optional
fraction and boundary, trying longer runs first and falling back (the
regex backtracks on the final boundary). -/
def commaStarEnd : ℕ → Str → Bool
  | 0, r => fracOptEnd r
  | fuel + 1, r =>
    match r with
    | ',' :: r2 =>
      (match digitsN 3 r2 with
       | some r3 => commaStarEnd fuel r3 || fracOptEnd r
       | none => fracOptEnd r)
    | _ => fracOptEnd r

/-- One-position match of `AED_PATTERN` (case-insensitive `AED`, spaces,
a comma-grouped amount, optional fraction, boundary). -/
def aedFrom (s : Str) : Bool :=
  match s with
  | a :: e :: d :: r =>
    a.toLower == 'a' && e.toLower == 'e' && d.toLower == 'd' &&
      (takeWs r).1 != 0 &&
      (takeDigits (takeWs r).2).1 != 0 &&
      commaStarEnd ((takeDigits (takeWs r).2).2).length
        (takeDigits (takeWs r).2).2
  | _ => false

/-- `AED_PATTERN.search(text)`. -/
def searchAed (t : Str) : Bool :=
  (posWithPrev none t).any (fun pr => prevNonWord pr.1 && aedFrom pr.2)

/-- At least one comma-plus-three-digit group then the trailing
boundary, backtracking over the group count. -/
def commaPlusEnd : ℕ → Str → Bool
  | 0, _ => false
  | fuel + 1, r =>
    match r with
    | ',' :: r2 =>
      (match digitsN 3 r2 with
       | some r3 => commaPlusEnd fuel r3 || boundAfterDigit r3
       | none => false)
    | _ => false

/-- One-position match of `COMMA_INT_PATTERN` (one to three digits — all
backtracking lengths — then at least one comma group and a boundary). -/
def commaIntFrom (s : Str) : Bool :=
  (match digitsN 3 s with
   | some r => commaPlusEnd (r.length + 1) r
   | none => false) ||
  (match digitsN 2 s with
   | some r => commaPlusEnd (r.length + 1) r
   | none => false) ||
  (match digitsN 1 s with
   | some r => commaPlusEnd (r.length + 1) r
   | none => false)

/-- `COMMA_INT_PATTERN.search(text)`. -/
def searchCommaInt (t : Str) : Bool :=
  (posWithPrev none t).any (fun pr => prevNonWord pr.1 && commaIntFrom pr.2)

def isAsciiAlpha (c : Char) : Bool :=
  (decide ('A' ≤ c) && decide (c ≤ 'Z')) ||
    (decide ('a' ≤ c) && decide (c ≤ 'z'))

/-- Count of leading ASCII letters, with the remainder. -/
def takeAlpha : Str → ℕ × Str
  | [] => (0, [])
  | c :: cs =>
    if isAsciiAlpha c then ((takeAlpha cs).1 + 1, (takeAlpha cs).2)
    else (0, c :: cs)

/-- Tail of `DATE_PATTERN` after the day digits: spaces, a word of
letters, spaces, a four-digit year, then a boundary. -/
def dateTail (r : Str) : Bool :=
  (takeWs r).1 != 0 &&
  (takeAlpha (takeWs r).2).1 != 0 &&
  (takeWs (takeAlpha (takeWs r).2).2).1 != 0 &&
  (match digitsN 4 (takeWs (takeAlpha (takeWs r).2).2).2 with
   | some r4 => boundAfterDigit r4
   | none => false)

/-- One-position match of `DATE_PATTERN` (one or two day digits — both
backtracking lengths — then the dated tail). -/
def dateFrom (s : Str) : Bool :=
  (match digitsN 2 s with
   | some r => dateTail r
   | none => false) ||
  (match digitsN 1 s with
   | some r => dateTail r
   | none => false)

/-- `DATE_PATTERN.search(text)`. -/
def searchDate (t : Str) : Bool :=
  (posWithPrev none t).any (fun pr => prevNonWord pr.1 && dateFrom pr.2)

/-- Number of maximal word-character runs: the length of
`re.findall` on the word pattern. -/
def countTokensAux (inRun : Bool) : Str → ℕ
  | [] => 0
  | c :: cs =>
    if isWordChar c then
      (if inRun then 0 else 1) + countTokensAux true cs
    else countTokensAux false cs

def countTokens (t : Str) : ℕ := countTokensAux false t

/-- Greedy match length of the numeric-token pattern's ending (optional
percent preferred, given up when the final boundary fails; after a
digit the boundary holds before a non-word character, after a percent
sign it needs a word character). -/
def numTokEnd (n : ℕ) (r : Str) : Option ℕ :=
  match r with
  | '%' :: r2 =>
    (match r2 with
     | c :: _ => if isWordChar c then some (n + 1) else some n
     | [] => some n)
  | c :: _ => if isWordChar c then none else some n
  | [] => some n

/-- Greedy one-position match length of the numeric-token pattern
(digits, optional point-or-comma fraction, optional percent, boundary),
with the regex's preference order. -/
def numTokLen (s : Str) : Option ℕ :=
  if (takeDigits s).1 = 0 then none
  else
    match (takeDigits s).2 with
    | c :: r2 =>
      if (c == '.' || c == ',') && (takeDigits r2).1 != 0 then
        match numTokEnd ((takeDigits s).1 + 1 + (takeDigits r2).1)
            (takeDigits r2).2 with
        | some L => some L
        | none => numTokEnd (takeDigits s).1 (c :: r2)
      else numTokEnd (takeDigits s).1 (c :: r2)
    | [] => numTokEnd (takeDigits s).1 []

/-- `re.findall` count for the numeric-token pattern: leftmost
non-overlapping matches, scanning with the boundary context. -/
def countNumToksAux : ℕ → Option Char → Str → ℕ
  | 0, _, _ => 0
  | fuel + 1, prev, s =>
    match s with
    | [] => 0
    | c :: cs =>
      if prevNonWord prev then
        match numTokLen (c :: cs) with
        | some L =>
          1 + countNumToksAux fuel (((c :: cs).drop (L - 1)).head?)
                ((c :: cs).drop L)
        | none => countNumToksAux fuel (some c) cs
      else countNumToksAux fuel (some c) cs

def countNumToks (t : Str) : ℕ := countNumToksAux t.length none t

def LEGAL_HEADINGS : List Str :=
  [str "selling restrictions", str "definitions",
   str "forward-looking statements", str "general information"]

def DEAL_KEYWORDS : List Str :=
  [str "nominal value", str "offer price range", str "offer shares",
   str "offered", str "subscription", str "price range"]

/-- The deal-signal hits of `_classify_block` (lines 85-105), in source
order: exact or casefolded issuer name, the comma-formatted share
count, the four numeric patterns, and the deal keywords. -/
def dealHits (text : Str) (issuerName : Option Str)
    (offerShares : Option ℤ) : List Str :=
  (match issuerName with
   | some name =>
     if name ≠ [] ∧ containsSub name text = true then [str "issuer_name_exact"]
     else if name ≠ [] ∧ containsSub (lowerStr name) (lowerStr text) = true then
       [str "issuer_name_casefold"]
     else []
   | none => []) ++
  (match offerShares with
   | some n =>
     if n ≠ 0 ∧ containsSub (formatIntCommas n) text = true then
       [str "offer_shares"]
     else []
   | none => []) ++
  (if searchPercent text then [str "percentage"] else []) ++
  (if searchAed text then [str "aed_amount"] else []) ++
  (if searchCommaInt text then [str "comma_integer"] else []) ++
  (if searchDate text then [str "date"] else []) ++
  (if DEAL_KEYWORDS.any (fun k => containsSub k (lowerStr text)) then
    [str "deal_keyword"]
  else [])

/-- The boilerplate-signal hits of `_classify_block` (lines 107-114):
legal-heading phrases, and the long-low-numeric-density test (the exact
rational comparison of twenty times the numeric count against the token
count implements the density threshold of one twentieth). -/
def boilHits (text : Str) : List Str :=
  (if LEGAL_HEADINGS.any (fun p => containsSub p (lowerStr text)) then
    [str "legal_heading"]
  else []) ++
  (if 30 < countTokens text ∧ 20 * countNumToks text < countTokens text then
    [str "dense_legal_low_numeric"]
  else [])

/-- The label `_classify_block` returns (lines 116-121). -/
def classifyBlock (text : Str) (issuerName : Option Str)
    (offerShares : Option ℤ) : Str :=
  if dealHits text issuerName offerShares ≠ [] ∧ boilHits text ≠ [] then
    str "mixed"
  else if dealHits text issuerName offerShares ≠ [] then str "deal_specific"
  else str "boilerplate"

/-!
## The heap view of `normalize_inputs`

Python dictionaries are mutable objects and `dict(raw)` copies only the
top level, so nested dictionaries stay shared between the caller's
mapping and `normalized_inputs`, and `_deep_set` writes through that
sharing.  The heap maps addresses to dictionary contents; a dictionary
value is a scalar or a reference to another dictionary.
-/

inductive HVal where
  | hnone : HVal
  | hstr : Str → HVal
  | hint : ℤ → HVal
  | hflt : Dec → HVal
  | href : ℕ → HVal
  deriving DecidableEq

abbrev HDict := List (Str × HVal)

abbrev Heap := List (ℕ × HDict)

def heapGet : Heap → ℕ → HDict
  | [], _ => []
  | (b, d) :: rest, a => if b = a then d else heapGet rest a

/-- Store a dictionary at an address (update in place, or bind fresh). -/
def heapSet : Heap → ℕ → HDict → Heap
  | [], a, d => [(a, d)]
  | (b, d0) :: rest, a, d =>
    if b = a then (b, d) :: rest else (b, d0) :: heapSet rest a d

def dictGet : HDict → Str → Option HVal
  | [], _ => none
  | (k0, v0) :: rest, k => if k0 = k then some v0 else dictGet rest k

/-- Python dictionary write: update the existing key in place, else
append in insertion order. -/
def dictSet : HDict → Str → HVal → HDict
  | [], k, v => [(k, v)]
  | (k0, v0) :: rest, k, v =>
    if k0 = k then (k0, v) :: rest else (k0, v0) :: dictSet rest k v

/-- `_deep_set(data, path, value)` on the heap: follow — or create —
intermediate dictionaries, then write the final key into whichever
dictionary the walk reached (lines 72-79).  The second component of the
state is the next fresh address. -/
def deepSetGo : Heap → ℕ → ℕ → List Str → HVal → Heap × ℕ
  | h, nx, _, [], _ => (h, nx)
  | h, nx, a, [last], v => (heapSet h a (dictSet (heapGet h a) last v), nx)
  | h, nx, a, p :: ps, v =>
    match dictGet (heapGet h a) p with
    | some (.href b) => deepSetGo h nx b ps v
    | _ =>
      deepSetGo
        (heapSet (heapSet h nx []) a (dictSet (heapGet h a) p (.href nx)))
        (nx + 1) nx ps v

/-- Read a heap value as the `PyVal` the pure pipeline consumes; the
fuel bounds the reference depth (any value past the heap's size). -/
def hvalToPy (h : Heap) : ℕ → HVal → PyVal
  | _, .hnone => .pnone
  | _, .hstr s => .pstr s
  | _, .hint z => .pint z
  | _, .hflt d => .pdec d
  | 0, .href _ => .pnone
  | fuel + 1, .href a =>
    .pdict ((heapGet h a).map (fun kv => (kv.1, hvalToPy h fuel kv.2)))

/-- The heap snapshot of the parsed raw mapping, as the pipeline sees it
at a given moment. -/
def heapSnap (h : Heap) (a : ℕ) : PyVal := hvalToPy h (h.length + 1) (.href a)

/-- `normalize_inputs` with its `normalized_inputs` mutations explicit
(lines 96-176): `_parse_json_like` on a mapping and `dict(raw)` are
shallow copies — fresh top-level dictionaries whose nested references
stay shared — and every `_deep_set` writes through whatever sharing the
heap holds; each field is read from the live heap at its source
position.  Returns the final heap, the next fresh address and the
address of `normalized_inputs`. -/
def heapNormalizeInputs (h0 : Heap) (nx0 : ℕ) (rawAddr : ℕ) :
    Heap × ℕ × ℕ :=
  -- raw = _parse_json_like(raw_inputs_json): dict(mapping)
  let h1 := heapSet h0 nx0 (heapGet h0 rawAddr)
  let parsed := nx0
  -- normalized_inputs = dict(raw)
  let h2 := heapSet h1 (nx0 + 1) (heapGet h1 parsed)
  let na := nx0 + 1
  -- _deep_set(normalized_inputs, "offer.currency", "AED")
  let s3 := deepSetGo h2 (nx0 + 2) na (splitOnChar '.' (str "offer.currency"))
    (.hstr (str "AED"))
  -- issuer.name read (lines 104-106)
  let issuerT := issuerNameText (heapSnap s3.1 parsed)
  -- offer.offer_shares read, conditional int write (lines 108-120)
  let sharesSnap := heapSnap s3.1 parsed
  let sharesT := offerSharesText sharesSnap
  let sharesVal := deepGet sharesSnap (str "offer.offer_shares")
  let s4 :=
    if sharesVal.isNone ∨ pyStrip (pyStr sharesVal) = [] then s3
    else
      match normalizeDecimal sharesVal with
      | none => s3
      | some d =>
        if d.intTrunc > 0 then
          deepSetGo s3.1 s3.2 na (splitOnChar '.' (str "offer.offer_shares"))
            (.hint d.intTrunc)
        else s3
  -- price range reads, conditional float writes (lines 122-134)
  let rangeSnap := heapSnap s4.1 parsed
  let rangeT := priceRangeText rangeSnap
  let lowVal := deepGet rangeSnap (str "offer.price_range_low_aed")
  let highVal := deepGet rangeSnap (str "offer.price_range_high_aed")
  let s5 :=
    if lowVal.isNone ∨ highVal.isNone then s4
    else
      match normalizeDecimal lowVal, normalizeDecimal highVal with
      | some low, some high =>
        deepSetGo
          (deepSetGo s4.1 s4.2 na
            (splitOnChar '.' (str "offer.price_range_low_aed")) (.hflt low)).1
          (deepSetGo s4.1 s4.2 na
            (splitOnChar '.' (str "offer.price_range_low_aed")) (.hflt low)).2
          na (splitOnChar '.' (str "offer.price_range_high_aed")) (.hflt high)
      | _, _ => s4
  -- nominal read, conditional float write (lines 140-151)
  let nomSnap := heapSnap s5.1 parsed
  let nominalT := nominalText nomSnap
  let nomVal := deepGet nomSnap (str "offer.nominal_value_per_share_aed")
  let s6 :=
    if nomVal.isNone ∨ pyStrip (pyStr nomVal) = [] then s5
    else
      match normalizeDecimal nomVal with
      | none => s5
      | some d =>
        deepSetGo s5.1 s5.2 na
          (splitOnChar '.' (str "offer.nominal_value_per_share_aed")) (.hflt d)
  -- percentage read, conditional float write (lines 153-161)
  let pctSnap := heapSnap s6.1 parsed
  let pctT := percentText pctSnap
  let pctVal := deepGet pctSnap (str "offer.percentage_offered")
  let s7 :=
    if pctVal.isNone ∨ pyStrip (pyStr pctVal) = [] then s6
    else
      match normalizeDecimal pctVal with
      | none => s6
      | some d =>
        deepSetGo s6.1 s6.2 na
          (splitOnChar '.' (str "offer.percentage_offered")) (.hflt d)
  -- the rendered-fields write-back loop (lines 173-174), insertion order
  let w1 := deepSetGo s7.1 s7.2 na (splitOnChar '.' (str "issuer.name"))
    (.hstr (renderOrMissing (str "issuer.name") issuerT).1)
  let w2 := deepSetGo w1.1 w1.2 na (splitOnChar '.' (str "offer.offer_shares"))
    (.hstr (renderOrMissing (str "offer.offer_shares") sharesT).1)
  let w3 := deepSetGo w2.1 w2.2 na (splitOnChar '.' (str "offer.price_range"))
    (.hstr (renderOrMissing (str "offer.price_range") rangeT).1)
  let w4 := deepSetGo w3.1 w3.2 na
    (splitOnChar '.' (str "offer.nominal_value_per_share"))
    (.hstr (renderOrMissing (str "offer.nominal_value_per_share") nominalT).1)
  let w5 := deepSetGo w4.1 w4.2 na
    (splitOnChar '.' (str "offer.percentage_offered"))
    (.hstr (renderOrMissing (str "offer.percentage_offered") pctT).1)
  let w6 := deepSetGo w5.1 w5.2 na
    (splitOnChar '.' (str "offer.offer_shares_words"))
    (.hstr (renderOrMissing (str "offer.offer_shares_words") none).1)
  let w7 := deepSetGo w6.1 w6.2 na (splitOnChar '.' (str "offer.size"))
    (.hstr (renderOrMissing (str "offer.offer_shares") sharesT).1)
  (w7.1, w7.2, na)

/-! ## General lemmas -/

theorem natReprAux_irrel (fuel : ℕ) :
    ∀ fuel' n, n < fuel → n < fuel' → natReprAux fuel n = natReprAux fuel' n := by
  induction fuel with
  | zero => intro fuel' n h; omega
  | succ f ih =>
    intro fuel' n h h'
    cases fuel' with
    | zero => omega
    | succ f' =>
      simp only [natReprAux]
      by_cases h10 : n < 10
      · simp [h10]
      · have hd : n / 10 < n := Nat.div_lt_self (by omega) (by omega)
        simp only [h10, if_false]
        rw [ih f' (n / 10) (by omega) (by omega)]

/-- The defining recursion of `natRepr`. -/
theorem natRepr_eq (n : ℕ) :
    natRepr n = if n < 10 then [digitChar n]
      else natRepr (n / 10) ++ [digitChar (n % 10)] := by
  unfold natRepr
  rw [natReprAux]
  by_cases h10 : n < 10
  · simp [h10]
  · have hd : n / 10 < n := Nat.div_lt_self (by omega) (by omega)
    simp only [h10, if_false]
    rw [natReprAux_irrel n (n / 10 + 1) (n / 10) (by omega) (by omega)]

theorem natRepr_last (n : ℕ) : ∃ l k, natRepr n = l ++ [digitChar k] := by
  rw [natRepr_eq]
  by_cases h : n < 10
  · exact ⟨[], n, by simp [h]⟩
  · exact ⟨natRepr (n / 10), n % 10, by simp [h]⟩

theorem natRepr_mem_digit (n : ℕ) : ∀ c ∈ natRepr n, ∃ k, c = digitChar k := by
  induction n using Nat.strong_induction_on with
  | _ n ih =>
    rw [natRepr_eq]
    by_cases h : n < 10
    · intro c hc
      simp [h] at hc
      exact ⟨n, hc⟩
    · simp only [h, if_false]
      intro c hc
      rcases List.mem_append.mp hc with h1 | h1
      · exact ih (n / 10) (Nat.div_lt_self (by omega) (by omega)) c h1
      · exact ⟨n % 10, by simpa using h1⟩

theorem digitChar_eq_zero_iff (n : ℕ) : digitChar n = '0' ↔ n % 10 = 0 := by
  have h : n % 10 < 10 := Nat.mod_lt _ (by omega)
  unfold digitChar
  rcases (show n % 10 = 0 ∨ n % 10 = 1 ∨ n % 10 = 2 ∨ n % 10 = 3 ∨ n % 10 = 4 ∨
      n % 10 = 5 ∨ n % 10 = 6 ∨ n % 10 = 7 ∨ n % 10 = 8 ∨ n % 10 = 9 by omega) with
    h | h | h | h | h | h | h | h | h | h <;> simp [h]

theorem digitChar_ne_dot (n : ℕ) : digitChar n ≠ '.' := by
  have h : n % 10 < 10 := Nat.mod_lt _ (by omega)
  unfold digitChar
  rcases (show n % 10 = 0 ∨ n % 10 = 1 ∨ n % 10 = 2 ∨ n % 10 = 3 ∨ n % 10 = 4 ∨
      n % 10 = 5 ∨ n % 10 = 6 ∨ n % 10 = 7 ∨ n % 10 = 8 ∨ n % 10 = 9 by omega) with
    h | h | h | h | h | h | h | h | h | h <;> simp [h]

theorem padDigitsRev_zero (e : ℕ) : padDigitsRev e 0 = List.replicate e '0' := by
  induction e with
  | zero => rfl
  | succ e ih => simp [padDigitsRev, ih, List.replicate_succ]; rfl

/-- Dropping a strippable block: `dropWhile` walks through a replicate. -/
theorem dropWhile_replicate_append (p : Char → Bool) (c : Char) (hp : p c = true)
    (k : ℕ) (l : Str) :
    List.dropWhile p (List.replicate k c ++ l) = List.dropWhile p l := by
  induction k with
  | zero => rfl
  | succ k ih => simp [List.replicate_succ, List.dropWhile, hp, ih]

theorem rstripChar_append_ne (c x : Char) (h : x ≠ c) (l : Str) :
    rstripChar c (l ++ [x]) = l ++ [x] := by
  unfold rstripChar
  simp [List.dropWhile, h]

theorem rstripChar_append_strip (l : Str) :
    rstripChar '0' (l ++ ['0']) = rstripChar '0' l := by
  unfold rstripChar
  simp [List.dropWhile]

theorem int_emod_pow_ten_iff (m : ℤ) (e : ℕ) :
    m % (10 : ℤ) ^ e = 0 ↔ m.natAbs % 10 ^ e = 0 := by
  have hpos : 0 < 10 ^ e := Nat.pos_pow_of_pos e (by omega)
  constructor
  · intro h
    have hd : (10 : ℤ) ^ e ∣ m := Int.dvd_of_emod_eq_zero h
    have hd2 := Int.natAbs_dvd_natAbs.mpr hd
    rw [Int.natAbs_pow] at hd2
    norm_num at hd2
    exact Nat.dvd_iff_mod_eq_zero.mp hd2
  · intro h
    have hd : (10 ^ e : ℕ) ∣ m.natAbs := Nat.dvd_iff_mod_eq_zero.mpr h
    have hd2 : ((10 : ℤ) ^ e) ∣ m := by
      apply Int.natAbs_dvd_natAbs.mp
      rw [Int.natAbs_pow]
      norm_num
      exact hd
    exact Int.emod_eq_zero_of_dvd hd2

theorem Dec.isIntegral_iff (m : ℤ) (e : ℕ) :
    Dec.isIntegral ⟨m, e⟩ = true ↔ m.natAbs % 10 ^ e = 0 := by
  unfold Dec.isIntegral
  simpa using int_emod_pow_ten_iff m e

theorem renderPlain_last (m : ℤ) (e : ℕ) (he : 1 ≤ e) :
    ∃ l, renderPlain ⟨m, e⟩ = l ++ [digitChar (m.natAbs % 10)] := by
  obtain ⟨e', rfl⟩ : ∃ e', e = e' + 1 := ⟨e - 1, by omega⟩
  unfold renderPlain
  have hk : m.natAbs % 10 ^ (e' + 1) % 10 = m.natAbs % 10 :=
    Nat.mod_mod_of_dvd _ (dvd_pow_self 10 (by omega))
  refine ⟨(if m < 0 then ['-'] else []) ++ natRepr (m.natAbs / 10 ^ (e' + 1)) ++
    '.' :: (padDigitsRev e' (m.natAbs % 10 ^ (e' + 1) / 10)).reverse, ?_⟩
  simp [padDigitsRev, hk, List.append_assoc]

theorem renderPlain_step (m : ℤ) (e : ℕ) (h10 : m % 10 = 0) (he : 1 ≤ e) :
    renderPlain ⟨m, e + 1⟩ = renderPlain ⟨m / 10, e⟩ ++ ['0'] := by
  have hdvd : (10 : ℤ) ∣ m := Int.dvd_of_emod_eq_zero h10
  obtain ⟨k, rfl⟩ := hdvd
  have hq : (10 * k : ℤ) / 10 = k := Int.mul_ediv_cancel_left k (by norm_num)
  rw [hq]
  unfold renderPlain
  have hs : ((10 * k : ℤ) < 0) ↔ (k < 0) := by constructor <;> intro h <;> omega
  have habs : (10 * k : ℤ).natAbs = 10 * k.natAbs := by
    simp [Int.natAbs_mul]
  have hint : 10 * k.natAbs / 10 ^ (e + 1) = k.natAbs / 10 ^ e := by
    rw [pow_succ, mul_comm ((10 : ℕ) ^ e) 10]
    exact Nat.mul_div_mul_left _ _ (by omega)
  have hmod : 10 * k.natAbs % 10 ^ (e + 1) = 10 * (k.natAbs % 10 ^ e) := by
    rw [pow_succ, mul_comm ((10 : ℕ) ^ e) 10]
    exact Nat.mul_mod_mul_left 10 _ _
  have h1 : 10 * (k.natAbs % 10 ^ e) % 10 = 0 := by omega
  have h2 : 10 * (k.natAbs % 10 ^ e) / 10 = k.natAbs % 10 ^ e := by omega
  have hz : digitChar 0 = '0' := rfl
  simp [hs, habs, hint, hmod, padDigitsRev, h1, h2, hz, show e ≠ 0 by omega,
    List.append_assoc]

theorem rstrip_renderPlain_no_op (m : ℤ) (e : ℕ) (he : 1 ≤ e)
    (h10 : m.natAbs % 10 ≠ 0) :
    rstripChar '.' (rstripChar '0' (renderPlain ⟨m, e⟩)) = renderPlain ⟨m, e⟩ := by
  obtain ⟨l, hl⟩ := renderPlain_last m e he
  rw [hl, rstripChar_append_ne _ _ (by simpa [digitChar_eq_zero_iff] using h10) l,
    rstripChar_append_ne _ _ (digitChar_ne_dot _) l]

/-- On a mantissa that is not divisible out to its exponent, stripping the
rendered trailing zeros is exactly `Decimal.normalize`. -/
theorem strip_eq_normalizeDec :
    ∀ e m, m.natAbs % 10 ^ e ≠ 0 → 1 ≤ e →
      rstripChar '.' (rstripChar '0' (renderPlain ⟨m, e⟩)) =
        renderPlain (normalizeDec ⟨m, e⟩) := by
  intro e
  induction e with
  | zero => omega
  | succ e' ih =>
    intro m hmod he
    by_cases h10 : m % 10 = 0
    · have he' : 1 ≤ e' := by
        rcases Nat.eq_zero_or_pos e' with h | h
        · exfalso
          apply hmod
          have h1 : m.natAbs % 10 ^ 1 = 0 :=
            (int_emod_pow_ten_iff m 1).mp (by simpa using h10)
          simpa [h] using h1
        · omega
      rw [renderPlain_step m e' h10 he', rstripChar_append_strip]
      have hdvd : (10 : ℤ) ∣ m := Int.dvd_of_emod_eq_zero h10
      obtain ⟨k, rfl⟩ := hdvd
      have hq : (10 * k : ℤ) / 10 = k := Int.mul_ediv_cancel_left k (by norm_num)
      have hknot : k.natAbs % 10 ^ e' ≠ 0 := by
        intro hk
        apply hmod
        have : (10 * k).natAbs = 10 * k.natAbs := by simp [Int.natAbs_mul]
        rw [this, pow_succ, mul_comm ((10 : ℕ) ^ e') 10, Nat.mul_mod_mul_left]
        omega
      have hrec : normalizeDec ⟨10 * k, e' + 1⟩ = normalizeDec ⟨k, e'⟩ := by
        show normalizeDecAux (10 * k) (e' + 1) = normalizeDecAux k e'
        rw [normalizeDecAux, if_pos (show (10 * k : ℤ) % 10 = 0 by omega), hq]
      rw [hq, hrec]
      exact ih k hknot he'
    · have hstay : normalizeDec ⟨m, e' + 1⟩ = ⟨m, e' + 1⟩ := by
        show normalizeDecAux m (e' + 1) = ⟨m, e' + 1⟩
        rw [normalizeDecAux, if_neg h10]
      rw [hstay]
      apply rstrip_renderPlain_no_op m (e' + 1) he
      intro hna
      apply h10
      have h1 : m % (10 : ℤ) ^ 1 = 0 :=
        (int_emod_pow_ten_iff m 1).mpr (by simpa using hna)
      simpa using h1

theorem rstripChar_append_self (c : Char) (l : Str) :
    rstripChar c (l ++ [c]) = rstripChar c l := by
  unfold rstripChar
  simp [List.dropWhile]

theorem renderPlain_zero_shape (m : ℤ) :
    renderPlain ⟨m, 0⟩ = (if m < 0 then ['-'] else []) ++ natRepr m.natAbs := by
  unfold renderPlain
  simp

theorem dot_not_mem_renderPlain_zero (m : ℤ) : '.' ∉ renderPlain ⟨m, 0⟩ := by
  intro hmem
  rw [renderPlain_zero_shape] at hmem
  rcases List.mem_append.mp hmem with h | h
  · by_cases hm : m < 0 <;> simp [hm] at h
  · obtain ⟨k, hk⟩ := natRepr_mem_digit _ _ h
    exact digitChar_ne_dot k hk.symm

theorem dot_mem_renderPlain (m : ℤ) (e : ℕ) (he : 1 ≤ e) :
    '.' ∈ renderPlain ⟨m, e⟩ := by
  unfold renderPlain
  simp [show e ≠ 0 by omega]

theorem rstrip_zeros_after_dot (pre : Str) (k : ℕ) :
    rstripChar '0' (pre ++ '.' :: List.replicate k '0') = pre ++ ['.'] := by
  unfold rstripChar
  rw [List.reverse_append, List.reverse_cons, List.reverse_replicate,
    List.append_assoc]
  rw [dropWhile_replicate_append _ '0' (by simp) k]
  simp [List.dropWhile]

theorem rstrip_dot_signed_repr (s : Str) (x : ℕ)
    (hs : ∀ c ∈ s, c ≠ '.') :
    rstripChar '.' ((s ++ natRepr x) ++ ['.']) = s ++ natRepr x := by
  rw [rstripChar_append_self]
  obtain ⟨l, k, hk⟩ := natRepr_last x
  rw [hk, ← List.append_assoc]
  exact rstripChar_append_ne _ _ (digitChar_ne_dot k) _

theorem intRepr_intTrunc (m : ℤ) (e : ℕ) (h : m.natAbs % 10 ^ e = 0) :
    intRepr (Dec.intTrunc ⟨m, e⟩) =
      (if m < 0 then ['-'] else []) ++ natRepr (m.natAbs / 10 ^ e) := by
  unfold Dec.intTrunc truncDiv intRepr
  by_cases hm : m < 0
  · have ha : 0 < m.natAbs := Int.natAbs_pos.mpr (by omega)
    have hd : (10 ^ e : ℕ) ∣ m.natAbs := Nat.dvd_iff_mod_eq_zero.mpr h
    have hq : 0 < m.natAbs / 10 ^ e :=
      Nat.div_pos (Nat.le_of_dvd ha hd) (Nat.pos_pow_of_pos e (by omega))
    have hneg : (-((m.natAbs / 10 ^ e : ℕ) : ℤ) < 0) := by
      have hc : (0 : ℤ) < ((m.natAbs / 10 ^ e : ℕ) : ℤ) := by exact_mod_cast hq
      omega
    rw [if_pos hm, if_pos hm, if_pos hneg]
    have habs : (-((m.natAbs / 10 ^ e : ℕ) : ℤ)).natAbs = m.natAbs / 10 ^ e := by
      rw [Int.natAbs_neg, Int.natAbs_ofNat]
    rw [habs]
  · have hnn : ¬ (((m.natAbs / 10 ^ e : ℕ) : ℤ) < 0) := by
      have hc := Int.natCast_nonneg (m.natAbs / 10 ^ e)
      omega
    rw [if_neg hm, if_neg hm, if_neg hnn, Int.natAbs_ofNat]

/-- `format_percent` realises exactly the spec's rendering rule: the decimal
with trailing fractional zeros stripped, no decimal point for whole values. -/
theorem formatPercent_eq_spec (d : Dec) : formatPercent d = specPercentRender d := by
  obtain ⟨m, e⟩ := d
  unfold formatPercent specPercentRender
  by_cases hi : Dec.isIntegral ⟨m, e⟩ = true
  · have hmod : m.natAbs % 10 ^ e = 0 := (Dec.isIntegral_iff m e).mp hi
    cases e with
    | zero =>
      have hdot := dot_not_mem_renderPlain_zero m
      simp only [hi, if_true, hdot, if_false]
      rw [intRepr_intTrunc m 0 hmod]
      unfold renderPlain
      simp
    | succ e' =>
      have hdot := dot_mem_renderPlain m (e' + 1) (by omega)
      simp only [hi, if_true, hdot, if_true]
      have hshape : renderPlain ⟨m, e' + 1⟩ =
          ((if m < 0 then ['-'] else []) ++ natRepr (m.natAbs / 10 ^ (e' + 1))) ++
            '.' :: List.replicate (e' + 1) '0' := by
        unfold renderPlain
        simp [hmod, padDigitsRev_zero, List.append_assoc]
      rw [hshape, rstrip_zeros_after_dot, rstrip_dot_signed_repr _ _ (by
        intro c hc
        split at hc <;> simp_all)]
      rw [intRepr_intTrunc m (e' + 1) hmod]
  · have hnm : m.natAbs % 10 ^ e ≠ 0 := fun h => hi ((Dec.isIntegral_iff m e).mpr h)
    have he : 1 ≤ e := by
      rcases Nat.eq_zero_or_pos e with h | h
      · exfalso
        exact hnm (by simp [h, Nat.mod_one])
      · omega
    have hdot := dot_mem_renderPlain m e he
    simp only [hi, if_false, hdot, if_true]
    rw [strip_eq_normalizeDec e m hnm he]
    simp [Bool.not_eq_true] at hi
    simp [hi]

theorem pyStrip_ne_nil_of_mem (c : Char) (l : Str) (hc : c ∈ l)
    (h : isWs c = false) : pyStrip l ≠ [] := by
  unfold pyStrip
  intro hnil
  have hcd : c ∈ l.dropWhile isWs := by
    have hsplit := List.takeWhile_append_dropWhile (p := isWs) (l := l)
    rcases List.mem_append.mp (by rw [hsplit]; exact hc) with hmem | hmem
    · have := List.mem_takeWhile_imp hmem
      rw [h] at this
      exact absurd this (by simp)
    · exact hmem
  simp only [List.reverse_eq_nil_iff, List.dropWhile_eq_nil_iff] at hnil
  have := hnil c (by simpa using hcd)
  rw [h] at this
  exact absurd this (by simp)

theorem pyStrip_ne_nil_of_head (c : Char) (l : Str) (h : isWs c = false) :
    pyStrip (c :: l) ≠ [] :=
  pyStrip_ne_nil_of_mem c _ (by simp) h

theorem nominalText_eq (raw : PyVal) (d : Dec)
    (h1 : (deepGet raw (str "offer.nominal_value_per_share_aed")).isNone = false)
    (h2 : pyStrip (pyStr (deepGet raw (str "offer.nominal_value_per_share_aed"))) ≠ [])
    (h3 : normalizeDecimal (deepGet raw (str "offer.nominal_value_per_share_aed")) =
      some d) :
    nominalText raw = some (str "AED " ++ fmt2 (floatOfDec d)) := by
  unfold nominalText
  simp [h1, h2, h3]

theorem percentText_eq (raw : PyVal) (d : Dec)
    (h1 : (deepGet raw (str "offer.percentage_offered")).isNone = false)
    (h2 : pyStrip (pyStr (deepGet raw (str "offer.percentage_offered"))) ≠ [])
    (h3 : normalizeDecimal (deepGet raw (str "offer.percentage_offered")) = some d) :
    percentText raw = some (formatPercent d) := by
  unfold percentText
  simp [h1, h2, h3]

theorem lookup_nominal (raw : PyVal) :
    lookupRendered (normalizeRenderedMap raw).1 (str "offer.nominal_value_per_share") =
      some (renderOrMissing (str "offer.nominal_value_per_share") (nominalText raw)).1 := by
  unfold normalizeRenderedMap
  simp only [lookupRendered]
  rw [if_neg (by decide), if_neg (by decide), if_neg (by decide)]
  simp

theorem lookup_percent (raw : PyVal) :
    lookupRendered (normalizeRenderedMap raw).1 (str "offer.percentage_offered") =
      some (renderOrMissing (str "offer.percentage_offered") (percentText raw)).1 := by
  unfold normalizeRenderedMap
  simp only [lookupRendered]
  rw [if_neg (by decide), if_neg (by decide), if_neg (by decide), if_neg (by decide)]
  simp

theorem renderOrMissing_of_some (path v : Str) (hv : pyStrip v ≠ []) :
    (renderOrMissing path (some v)).1 = v := by
  unfold renderOrMissing
  simp [hv]

/-! ## Run-splice lemmas -/

theorem overlapIdxsAux_shift (s e k : ℕ) (hks : k ≤ s) (hke : k ≤ e) :
    ∀ ts c i, overlapIdxsAux s e i (runRanges (c + k) ts) =
      overlapIdxsAux (s - k) (e - k) i (runRanges c ts) := by
  intro ts
  induction ts with
  | nil => intro c i; rfl
  | cons t ts ih =>
    intro c i
    simp only [runRanges, overlapIdxsAux]
    have hcond : (c + k < e ∧ c + k + t.length > s) ↔
        (c < e - k ∧ c + t.length > s - k) := by omega
    by_cases h : c + k < e ∧ c + k + t.length > s
    · rw [if_pos h, if_pos (hcond.mp h)]
      have := ih (c + t.length) (i + 1)
      rw [show c + k + t.length = c + t.length + k by omega] at *
      rw [this]
    · rw [if_neg h, if_neg (fun hc => h (hcond.mpr hc))]
      have := ih (c + t.length) (i + 1)
      rw [show c + k + t.length = c + t.length + k by omega] at *
      rw [this]

theorem overlapIdxsAux_succ (s e : ℕ) :
    ∀ ranges i, overlapIdxsAux s e (i + 1) ranges =
      (overlapIdxsAux s e i ranges).map (· + 1) := by
  intro ranges
  induction ranges with
  | nil => intro i; rfl
  | cons p rest ih =>
    intro i
    obtain ⟨st, en⟩ := p
    simp only [overlapIdxsAux]
    by_cases h : st < e ∧ en > s
    · rw [if_pos h, if_pos h, List.map_cons, ← ih (i + 1)]
    · rw [if_neg h, if_neg h, ih (i + 1)]

theorem overlapIdxsAux_after (s e : ℕ) :
    ∀ ts c i, e ≤ c → overlapIdxsAux s e i (runRanges c ts) = [] := by
  intro ts
  induction ts with
  | nil => intro c i _; rfl
  | cons t ts ih =>
    intro c i hc
    simp only [runRanges, overlapIdxsAux]
    rw [if_neg (by omega)]
    exact ih (c + t.length) (i + 1) (by omega)

theorem overlapIdxsAux_tail (s e : ℕ) :
    ∀ ts c i, s < c → overlapIdxsAux s e i (runRanges c ts) =
      List.range' i (coveredCount ts (e - c)) := by
  intro ts
  induction ts with
  | nil => intro c i _; rfl
  | cons t ts ih =>
    intro c i hs
    simp only [runRanges, overlapIdxsAux, coveredCount]
    by_cases hc : c < e
    · rw [if_pos ⟨hc, by omega⟩, if_pos (by omega)]
      rw [ih (c + t.length) (i + 1) (by omega)]
      rw [show e - c - t.length = e - (c + t.length) by omega]
      rw [Nat.add_comm 1 (coveredCount ts (e - (c + t.length))), List.range'_succ]
    · rw [if_neg (by omega), if_neg (by omega)]
      simp only [List.range'_zero]
      exact overlapIdxsAux_after s e ts (c + t.length) (i + 1) (by omega)

theorem coveredCount_le_length : ∀ (ts : List Str) (e' : ℕ),
    coveredCount ts e' ≤ ts.length := by
  intro ts
  induction ts with
  | nil => intro e'; simp [coveredCount]
  | cons t ts ih =>
    intro e'
    simp only [coveredCount]
    by_cases h : 0 < e'
    · rw [if_pos h]
      have := ih (e' - t.length)
      simp only [List.length_cons]
      omega
    · rw [if_neg h]
      simp

theorem coveredCount_pos (ts : List Str) (e' : ℕ) (h1 : 1 ≤ e')
    (h2 : e' ≤ ts.flatten.length) : 1 ≤ coveredCount ts e' := by
  cases ts with
  | nil =>
    simp only [List.flatten_nil, List.length_nil] at h2
    omega
  | cons t ts =>
    simp only [coveredCount]
    rw [if_pos (by omega)]
    omega

theorem runRanges_get (c : ℕ) : ∀ (ts : List Str) (i : ℕ), i < ts.length →
    (runRanges c ts).get? i =
      some (c + ((ts.take i).flatten).length, c + ((ts.take (i + 1)).flatten).length) := by
  intro ts
  induction ts generalizing c with
  | nil => intro i h; simp at h
  | cons t ts ih =>
    intro i hi
    cases i with
    | zero => simp [runRanges]
    | succ i =>
      simp only [runRanges, List.get?_cons_succ, List.take_succ_cons,
        List.flatten_cons, List.length_append]
      rw [ih (c + t.length) i (by simpa using hi)]
      congr 2 <;> omega

theorem getLastD_map_succ : ∀ (l : List ℕ) (d : ℕ),
    (l.map (· + 1)).getLastD (d + 1) = l.getLastD d + 1 := by
  intro l
  induction l with
  | nil => intro d; rfl
  | cons a l ih =>
    intro d
    simp only [List.map_cons, List.getLastD_cons]
    exact ih a

theorem getLastD_range' : ∀ (k i d : ℕ), (List.range' i (k + 1)).getLastD d = i + k := by
  intro k
  induction k with
  | zero => intro i d; simp [List.range']
  | succ k ih =>
    intro i d
    rw [List.range'_succ, List.getLastD_cons]
    rw [ih (i + 1) i]
    omega

theorem dropLast_range' : ∀ (k i : ℕ), (List.range' i k).dropLast = List.range' i (k - 1) := by
  intro k
  induction k with
  | zero => intro i; rfl
  | succ k ih =>
    intro i
    cases k with
    | zero => simp [List.range']
    | succ k =>
      rw [List.range'_succ]
      rw [List.dropLast_cons_of_ne_nil (by simp [List.range'])]
      rw [ih (i + 1)]
      simp [List.range'_succ]

theorem foldl_set_shift : ∀ (idxs : List ℕ) (t : Str) (acc : List Str),
    ((idxs.map (· + 1)).foldl (fun a i => a.set i ([] : Str)) (t :: acc)) =
      t :: idxs.foldl (fun a i => a.set i []) acc := by
  intro idxs
  induction idxs with
  | nil => intro t acc; rfl
  | cons j idxs ih =>
    intro t acc
    simp only [List.map_cons, List.foldl_cons, List.set_cons_succ]
    exact ih t (acc.set j [])

theorem blankUntil_flatten : ∀ (ts : List Str) (e' : ℕ), e' ≤ ts.flatten.length →
    (blankUntil e' ts).flatten = ts.flatten.drop e' ∧
    (blankUntil e' ts).length = ts.length := by
  intro ts
  induction ts with
  | nil =>
    intro e' h
    simp [blankUntil]
  | cons t ts ih =>
    intro e' he
    simp only [blankUntil]
    by_cases h : e' ≤ t.length
    · rw [if_pos h]
      constructor
      · rw [List.flatten_cons, List.flatten_cons,
          List.drop_append_of_le_length h]
      · simp
    · rw [if_neg h]
      have hrec := ih (e' - t.length) (by
        simp only [List.flatten_cons, List.length_append] at he
        omega)
      constructor
      · rw [List.flatten_cons, List.flatten_cons, List.nil_append, hrec.1]
        have hd : (t ++ ts.flatten).drop e' = ts.flatten.drop (e' - t.length) := by
          rw [show e' = t.length + (e' - t.length) by omega, List.drop_append]
          congr 1
          omega
        rw [hd]
      · simp only [List.length_cons, hrec.2]

theorem dropLast_map {α β : Type} (f : α → β) : ∀ l : List α,
    (l.map f).dropLast = l.dropLast.map f := by
  intro l
  induction l with
  | nil => rfl
  | cons a l ih =>
    cases l with
    | nil => rfl
    | cons b l =>
      simp only [List.map_cons, List.dropLast_cons₂, ← ih, List.map_cons]

theorem coveredCount_zero : ∀ ts : List Str, coveredCount ts 0 = 0 := by
  intro ts
  cases ts <;> simp [coveredCount]

theorem range'_shift : ∀ (k i : ℕ), List.range' (i + 1) k = (List.range' i k).map (· + 1) := by
  intro k
  induction k with
  | zero => intro i; rfl
  | succ k ih =>
    intro i
    rw [List.range'_succ, List.range'_succ, List.map_cons, ← ih (i + 1)]

theorem runRanges_length (c : ℕ) : ∀ ts : List Str, (runRanges c ts).length = ts.length := by
  intro ts
  induction ts generalizing c with
  | nil => rfl
  | cons t ts ih => simp [runRanges, ih]

/-- The core of a multi-run splice past the first run: blanking the interior
indexes and writing the suffix into the last equals `blankUntil`. -/
theorem tail_apply : ∀ (ts : List Str) (e' : ℕ), 1 ≤ e' → e' ≤ ts.flatten.length →
    ∀ hd : Str,
    ((List.range' 1 (coveredCount ts e' - 1)).foldl
        (fun a i => a.set i ([] : Str)) (hd :: ts)).set (coveredCount ts e')
        (((ts.get? (coveredCount ts e' - 1)).getD []).drop
          (e' - ((ts.take (coveredCount ts e' - 1)).flatten).length)) =
      hd :: blankUntil e' ts := by
  intro ts
  induction ts with
  | nil =>
    intro e' h1 h2
    simp only [List.flatten_nil, List.length_nil] at h2
    omega
  | cons u ts ih =>
    intro e' h1 h2 hd
    have hcnt : coveredCount (u :: ts) e' = 1 + coveredCount ts (e' - u.length) := by
      simp [coveredCount, show 0 < e' by omega]
    by_cases h : e' ≤ u.length
    · have hz : e' - u.length = 0 := by omega
      rw [hcnt, hz, coveredCount_zero]
      simp only [Nat.add_zero, Nat.sub_self, List.range'_zero, List.foldl_nil,
        List.take_zero, List.flatten_nil, List.length_nil, Nat.sub_zero,
        List.get?_cons_zero, Option.getD_some]
      rw [List.set_cons_succ, List.set_cons_zero]
      rw [blankUntil, if_pos h]
    · have hm : u.length < e' := by omega
      have he2 : e' - u.length ≤ ts.flatten.length := by
        simp only [List.flatten_cons, List.length_append] at h2
        omega
      have hc1 : 1 ≤ coveredCount ts (e' - u.length) :=
        coveredCount_pos ts _ (by omega) he2
      set cnt' := coveredCount ts (e' - u.length) with hcnt'
      rw [hcnt]
      have hr1 : List.range' 1 (1 + cnt' - 1) = 1 :: List.range' 2 (cnt' - 1) := by
        rw [show 1 + cnt' - 1 = (cnt' - 1) + 1 by omega, List.range'_succ]
      rw [hr1]
      simp only [List.foldl_cons]
      rw [List.set_cons_succ, List.set_cons_zero]
      have hr2 : List.range' 2 (cnt' - 1) = (List.range' 1 (cnt' - 1)).map (· + 1) :=
        range'_shift _ 1
      rw [hr2, foldl_set_shift]
      rw [show 1 + cnt' = cnt' + 1 by omega, List.set_cons_succ]
      have hget : (u :: ts).get? (cnt' + 1 - 1) = ts.get? (cnt' - 1) := by
        rw [show cnt' + 1 - 1 = (cnt' - 1) + 1 by omega, List.get?_cons_succ]
      rw [hget]
      have htake : ((u :: ts).take (cnt' + 1 - 1)).flatten.length =
          u.length + ((ts.take (cnt' - 1)).flatten).length := by
        rw [show cnt' + 1 - 1 = (cnt' - 1) + 1 by omega, List.take_succ_cons,
          List.flatten_cons, List.length_append]
      rw [htake]
      rw [show e' - (u.length + ((ts.take (cnt' - 1)).flatten).length) =
        (e' - u.length) - ((ts.take (cnt' - 1)).flatten).length by omega]
      rw [ih (e' - u.length) (by omega) he2 []]
      rw [blankUntil, if_neg (by omega)]

theorem overlap_mem_lt (s e : ℕ) : ∀ (ranges : List (ℕ × ℕ)) (i j : ℕ),
    j ∈ overlapIdxsAux s e i ranges → j < i + ranges.length := by
  intro ranges
  induction ranges with
  | nil => intro i j h; simp [overlapIdxsAux] at h
  | cons p rest ih =>
    intro i j h
    obtain ⟨st, en⟩ := p
    simp only [overlapIdxsAux] at h
    by_cases hc : st < e ∧ en > s
    · rw [if_pos hc] at h
      rcases List.mem_cons.mp h with h1 | h1
      · subst h1
        simp only [List.length_cons]
        omega
      · have := ih (i + 1) j h1
        simp only [List.length_cons]
        omega
    · rw [if_neg hc] at h
      have := ih (i + 1) j h
      simp only [List.length_cons]
      omega

theorem getLastD_mem {α : Type} : ∀ (l : List α) (d : α), l ≠ [] → l.getLastD d ∈ l := by
  intro l
  induction l with
  | nil => intro d h; exact absurd rfl h
  | cons a l ih =>
    intro d _
    rw [List.getLastD_cons]
    cases l with
    | nil => simp [List.getLastD_nil]
    | cons b l =>
      have := ih a (by simp)
      exact List.mem_cons_of_mem a this

/-- Shifting a splice over an untouched head run. -/
theorem spliceCore_shift (t : Str) (ts : List Str) (s e : ℕ) (r : Str)
    (OL : List ℕ) (f' : ℕ) (hne : OL ≠ []) (hhead : OL.head? = some f')
    (hbound : ∀ j ∈ OL, j < ts.length) (hn : t.length ≤ s) :
    spliceCore (t :: ts) (runRanges 0 (t :: ts)) (OL.map (· + 1)) (f' + 1) s e r =
      t :: spliceCore ts (runRanges 0 ts) OL f' (s - t.length) (e - t.length) r := by
  have hf'mem : f' ∈ OL := by
    cases OL with
    | nil => exact absurd rfl hne
    | cons a rest =>
      simp only [List.head?_cons, Option.some_inj] at hhead
      simp [← hhead]
  have hf' : f' < ts.length := hbound f' hf'mem
  have hl'mem : OL.getLastD f' ∈ OL := getLastD_mem OL f' hne
  have hl' : OL.getLastD f' < ts.length := hbound _ hl'mem
  have hg1 : (runRanges 0 (t :: ts)).get? (f' + 1) =
      some (t.length + ((ts.take f').flatten).length,
            t.length + ((ts.take (f' + 1)).flatten).length) := by
    show ((0, 0 + t.length) :: runRanges (0 + t.length) ts).get? (f' + 1) = _
    rw [List.get?_cons_succ, Nat.zero_add, runRanges_get t.length ts f' hf']
  have hg2 : (runRanges 0 (t :: ts)).get? (OL.getLastD f' + 1) =
      some (t.length + ((ts.take (OL.getLastD f')).flatten).length,
            t.length + ((ts.take (OL.getLastD f' + 1)).flatten).length) := by
    show ((0, 0 + t.length) :: runRanges (0 + t.length) ts).get? (OL.getLastD f' + 1) = _
    rw [List.get?_cons_succ, Nat.zero_add, runRanges_get t.length ts _ hl']
  have hg1' : (runRanges 0 ts).get? f' =
      some (((ts.take f').flatten).length, ((ts.take (f' + 1)).flatten).length) := by
    rw [runRanges_get 0 ts f' hf']
    simp
  have hg2' : (runRanges 0 ts).get? (OL.getLastD f') =
      some (((ts.take (OL.getLastD f')).flatten).length,
            ((ts.take (OL.getLastD f' + 1)).flatten).length) := by
    rw [runRanges_get 0 ts _ hl']
    simp
  simp only [spliceCore, getLastD_map_succ, hg1, hg2, hg1', hg2', Option.map_some',
    Option.getD_some, List.get?_cons_succ]
  rw [show s - (t.length + ((ts.take f').flatten).length) =
    s - t.length - ((ts.take f').flatten).length by omega]
  rw [show e - (t.length + ((ts.take (OL.getLastD f')).flatten).length) =
    e - t.length - ((ts.take (OL.getLastD f')).flatten).length by omega]
  by_cases hfl : OL.getLastD f' = f'
  · rw [hfl]
    rw [if_neg (by omega), if_neg (by omega)]
    rw [List.set_cons_succ]
  · rw [if_pos (by omega), if_pos hfl]
    rw [List.set_cons_succ]
    have hmap : ((OL.map (· + 1)).drop 1).dropLast =
        ((OL.drop 1).dropLast).map (· + 1) := by
      rw [← List.map_drop, dropLast_map]
    rw [hmap, foldl_set_shift, List.set_cons_succ]


theorem overlap_bound (s e : ℕ) (ts : List Str) :
    ∀ j ∈ overlapIdxs (runRanges 0 ts) s e, j < ts.length := by
  intro j hj
  have := overlap_mem_lt s e (runRanges 0 ts) 0 j hj
  rwa [Nat.zero_add, runRanges_length] at this

/-- Splice equation: a head run ending at or before the span start is
untouched and the splice recurses into the tail. -/
theorem spliceRuns_before (t : Str) (ts : List Str) (s e : ℕ) (r : Str)
    (hn : t.length ≤ s) (hse : s < e) :
    spliceRuns (t :: ts) s e r =
      (spliceRuns ts (s - t.length) (e - t.length) r).map (fun l => t :: l) := by
  have hov : overlapIdxs (runRanges 0 (t :: ts)) s e =
      (overlapIdxs (runRanges 0 ts) (s - t.length) (e - t.length)).map (· + 1) := by
    unfold overlapIdxs
    show overlapIdxsAux s e 0 ((0, 0 + t.length) :: runRanges (0 + t.length) ts) = _
    rw [overlapIdxsAux, if_neg (by omega), overlapIdxsAux_succ, Nat.zero_add]
    rw [show runRanges t.length ts = runRanges (0 + t.length) ts by rw [Nat.zero_add]]
    rw [overlapIdxsAux_shift s e t.length hn (by omega)]
  simp only [spliceRuns]
  rw [hov]
  cases hOL : overlapIdxs (runRanges 0 ts) (s - t.length) (e - t.length) with
  | nil => rfl
  | cons f' rest =>
    simp only [List.map_cons, Option.map_some']
    have hcs := spliceCore_shift t ts s e r (f' :: rest) f' (by simp) (by simp)
      (by rw [← hOL]; exact overlap_bound _ _ ts) hn
    simp only [List.map_cons] at hcs
    rw [hcs]

/-- Splice equation: the span lies inside the head run alone. -/
theorem spliceRuns_single (t : Str) (ts : List Str) (s e : ℕ) (r : Str)
    (hs : s < t.length) (hse : s < e) (he : e ≤ t.length) :
    spliceRuns (t :: ts) s e r = some ((t.take s ++ r ++ t.drop e) :: ts) := by
  have hov : overlapIdxs (runRanges 0 (t :: ts)) s e = [0] := by
    unfold overlapIdxs
    show overlapIdxsAux s e 0 ((0, 0 + t.length) :: runRanges (0 + t.length) ts) = [0]
    rw [overlapIdxsAux, if_pos ⟨by omega, by omega⟩,
      overlapIdxsAux_after s e ts (0 + t.length) 1 (by omega)]
  simp only [spliceRuns]
  rw [hov]
  simp only [spliceCore, List.getLastD_cons, List.getLastD_nil]
  rw [if_neg (by omega)]
  show some (((t :: ts).set 0 _)) = _
  rw [List.set_cons_zero]
  show some ((((((t :: ts).get? 0).getD []).take
    (s - ((((0, 0 + t.length) :: runRanges (0 + t.length) ts).get? 0).map Prod.fst).getD 0) ++ r ++
    (((t :: ts).get? 0).getD []).drop
    (e - ((((0, 0 + t.length) :: runRanges (0 + t.length) ts).get? 0).map Prod.fst).getD 0))) :: ts) = _
  simp

/-- Splice equation: the span starts in the head run and runs past it. -/
theorem spliceRuns_multi (t : Str) (ts : List Str) (s e : ℕ) (r : Str)
    (hs : s < t.length) (hn : t.length < e) (hL : e ≤ t.length + ts.flatten.length) :
    spliceRuns (t :: ts) s e r =
      some ((t.take s ++ r) :: blankUntil (e - t.length) ts) := by
  obtain ⟨k, hk⟩ : ∃ k, coveredCount ts (e - t.length) = k + 1 := by
    have := coveredCount_pos ts (e - t.length) (by omega) (by omega)
    exact ⟨coveredCount ts (e - t.length) - 1, by omega⟩
  have hkle : k + 1 ≤ ts.length := by
    have := coveredCount_le_length ts (e - t.length)
    omega
  have hov : overlapIdxs (runRanges 0 (t :: ts)) s e = 0 :: List.range' 1 (k + 1) := by
    unfold overlapIdxs
    show overlapIdxsAux s e 0 ((0, 0 + t.length) :: runRanges (0 + t.length) ts) = _
    rw [overlapIdxsAux, if_pos ⟨by omega, by omega⟩, Nat.zero_add (List.length t),
      overlapIdxsAux_tail s e ts t.length 1 hs, hk]
  simp only [spliceRuns]
  rw [hov]
  simp only [spliceCore, List.getLastD_cons, getLastD_range' k 1 0]
  rw [if_pos (by omega)]
  have hget0 : (runRanges 0 (t :: ts)).get? 0 = some (0, 0 + t.length) := rfl
  have hgetk : (runRanges 0 (t :: ts)).get? (1 + k) =
      some (t.length + ((ts.take k).flatten).length,
            t.length + ((ts.take (k + 1)).flatten).length) := by
    rw [show 1 + k = k + 1 by omega]
    show ((0, 0 + t.length) :: runRanges (0 + t.length) ts).get? (k + 1) = _
    rw [List.get?_cons_succ, Nat.zero_add, runRanges_get t.length ts k (by omega)]
  rw [hget0, hgetk]
  simp only [Option.map_some', Option.getD_some, List.get?_cons_zero,
    Nat.sub_zero]
  rw [show 1 + k = k + 1 by omega]
  rw [List.get?_cons_succ]
  rw [show ((0 :: List.range' 1 (k + 1)).drop 1).dropLast = List.range' 1 k by
    rw [List.drop_one, List.tail_cons, dropLast_range']
    simp]
  rw [List.set_cons_zero]
  rw [show e - (t.length + ((ts.take k).flatten).length) =
    (e - t.length) - ((ts.take k).flatten).length by omega]
  have happ := tail_apply ts (e - t.length) (by omega) (by omega) (t.take s ++ r)
  rw [hk] at happ
  simp only [Nat.add_sub_cancel] at happ
  rw [happ]

/-- Core correctness of the run-span splice: the concatenated text after one
splice is the original text with the span replaced, and the number of runs
is unchanged. -/
theorem splice_join : ∀ (runs : List Str) (s e : ℕ) (r : Str), s < e →
    e ≤ runs.flatten.length →
    ∃ runs', spliceRuns runs s e r = some runs' ∧
      runs'.flatten = runs.flatten.take s ++ r ++ runs.flatten.drop e ∧
      runs'.length = runs.length := by
  intro runs
  induction runs with
  | nil =>
    intro s e r hse hL
    simp only [List.flatten_nil, List.length_nil] at hL
    omega
  | cons t ts ih =>
    intro s e r hse hL
    simp only [List.flatten_cons, List.length_append] at hL
    by_cases h1 : t.length ≤ s
    · obtain ⟨runs', hr, hjoin, hlen⟩ := ih (s - t.length) (e - t.length) r
        (by omega) (by omega)
      refine ⟨t :: runs', ?_, ?_, ?_⟩
      · rw [spliceRuns_before t ts s e r h1 hse, hr]
        rfl
      · rw [List.flatten_cons, hjoin, List.flatten_cons]
        rw [List.take_append_eq_append_take, List.drop_append_eq_append_drop]
        rw [List.take_of_length_le h1,
          List.drop_eq_nil_of_le (show List.length t ≤ e by omega)]
        simp [List.append_assoc]
      · simp [hlen]
    · by_cases h2 : e ≤ t.length
      · refine ⟨(t.take s ++ r ++ t.drop e) :: ts,
          spliceRuns_single t ts s e r (by omega) hse h2, ?_, by simp⟩
        rw [List.flatten_cons, List.flatten_cons]
        rw [List.take_append_eq_append_take, List.drop_append_eq_append_drop]
        rw [show s - t.length = 0 by omega, show e - t.length = 0 by omega]
        simp [List.append_assoc]
      · have hbu := blankUntil_flatten ts (e - t.length) (by omega)
        refine ⟨(t.take s ++ r) :: blankUntil (e - t.length) ts,
          spliceRuns_multi t ts s e r (by omega) (by omega) (by omega), ?_, ?_⟩
        · rw [List.flatten_cons, hbu.1, List.flatten_cons]
          rw [List.take_append_eq_append_take, List.drop_append_eq_append_drop]
          rw [show s - t.length = 0 by omega,
            List.drop_eq_nil_of_le (show List.length t ≤ e by omega)]
          simp [List.append_assoc]
        · simp [hbu.2]

theorem findSubAux_sound (pat : Str) (hp : pat ≠ []) :
    ∀ (l : Str) (i s e : ℕ), findSubAux pat i l = some (s, e) →
      i ≤ s ∧ s < e ∧ e ≤ i + l.length := by
  intro l
  induction l with
  | nil => intro i s e h; simp [findSubAux] at h
  | cons c rest ih =>
    intro i s e h
    rw [findSubAux] at h
    by_cases hpre : pat.isPrefixOf (c :: rest)
    · rw [if_pos hpre] at h
      injection h with h1
      injection h1 with hs he
      subst hs
      subst he
      have hlen : pat.length ≤ (c :: rest).length :=
        (List.isPrefixOf_iff_prefix.mp hpre).length_le
      have hpos : 0 < pat.length := List.length_pos.mpr hp
      simp only [List.length_cons] at hlen ⊢
      omega
    · rw [if_neg hpre] at h
      have := ih (i + 1) s e h
      simp only [List.length_cons]
      omega

theorem findSub_valid (pat : Str) (hp : pat ≠ []) : ValidFind (findSub pat) := by
  intro t s e h
  have := findSubAux_sound pat hp t 0 s e h
  exact ⟨this.2.1, by simpa using this.2.2⟩

theorem ws_ne_lbrace (c : Char) (h : isWs c = true) : c ≠ lbrace := by
  unfold isWs at h
  simp only [Bool.or_eq_true, decide_eq_true_eq] at h
  rcases h with ((((h | h) | h) | h) | h) | h <;> subst h <;> decide

theorem pathChar_ne_lbrace (c : Char) (h : isPathChar c = true) : c ≠ lbrace := by
  intro hc
  subst hc
  exact absurd h (by decide)

theorem count_lbrace_zero_of_all (l : Str) (h : ∀ c ∈ l, c ≠ lbrace) :
    l.count lbrace = 0 :=
  List.count_eq_zero.mpr (fun hm => (h lbrace hm) rfl)

/-- Soundness of a head token match: length bounds, the matched segment
carries exactly two opening braces, and the path is made of path chars. -/
theorem tokenAt_sound (l p : Str) (len : ℕ) (h : tokenAt l = some (p, len)) :
    0 < len ∧ len ≤ l.length ∧ (l.take len).count lbrace = 2 ∧
      (∀ c ∈ p, isPathChar c = true) ∧ p ≠ [] := by
  unfold tokenAt at h
  by_cases hbb : l.take 2 = [lbrace, lbrace]
  case neg => rw [if_neg hbb] at h; exact absurd h (by simp)
  rw [if_pos hbb] at h
  by_cases hpne : ((l.drop 2).dropWhile isWs).takeWhile isPathChar = []
  case pos => rw [if_pos hpne] at h; exact absurd h (by simp)
  rw [if_neg hpne] at h
  by_cases hrb : ((((l.drop 2).dropWhile isWs).dropWhile isPathChar).dropWhile isWs).take 2 =
      [rbrace, rbrace]
  case neg => rw [if_neg hrb] at h; exact absurd h (by simp)
  rw [if_pos hrb] at h
  injection h with h1
  injection h1 with hpeq hleneq
  set rest := l.drop 2 with hrestdef
  set ws1 := rest.takeWhile isWs with hws1
  set rest1 := rest.dropWhile isWs with hrest1
  set pth := rest1.takeWhile isPathChar with hpathdef
  set rest2 := rest1.dropWhile isPathChar with hrest2
  set ws2 := rest2.takeWhile isWs with hws2
  set rest3 := rest2.dropWhile isWs with hrest3
  have hdecl : l = [lbrace, lbrace] ++ rest := by
    conv_lhs => rw [← List.take_append_drop 2 l]
    rw [hbb]
  have hdec : rest = ws1 ++ rest1 := (List.takeWhile_append_dropWhile isWs rest).symm
  have hdec1 : rest1 = pth ++ rest2 := (List.takeWhile_append_dropWhile isPathChar rest1).symm
  have hdec2 : rest2 = ws2 ++ rest3 := (List.takeWhile_append_dropWhile isWs rest2).symm
  have hdec3 : rest3 = [rbrace, rbrace] ++ rest3.drop 2 := by
    conv_lhs => rw [← List.take_append_drop 2 rest3]
    rw [hrb]
  have hwsall : ∀ c ∈ ws1, isWs c = true := fun c hc => List.mem_takeWhile_imp hc
  have hws2all : ∀ c ∈ ws2, isWs c = true := fun c hc => List.mem_takeWhile_imp hc
  have hpall : ∀ c ∈ pth, isPathChar c = true := fun c hc => List.mem_takeWhile_imp hc
  have hshape : l = (lbrace :: lbrace :: (ws1 ++ pth ++ ws2 ++ [rbrace, rbrace])) ++
      rest3.drop 2 := by
    rw [hdecl]
    conv_lhs => rw [hdec, hdec1, hdec2, hdec3]
    simp [List.append_assoc]
  have hlenA : (lbrace :: lbrace :: (ws1 ++ pth ++ ws2 ++ [rbrace, rbrace])).length =
      2 + ws1.length + pth.length + ws2.length + 2 := by
    simp [List.length_append]
    omega
  subst hpeq
  refine ⟨by omega, ?_, ?_, hpall, hpne⟩
  · rw [hshape, List.length_append, hlenA]
    omega
  · rw [hshape]
    rw [List.take_left' (by rw [hlenA, hleneq])]
    have hcw1 := count_lbrace_zero_of_all ws1 (fun c hc => ws_ne_lbrace c (hwsall c hc))
    have hcw2 := count_lbrace_zero_of_all ws2 (fun c hc => ws_ne_lbrace c (hws2all c hc))
    have hcp := count_lbrace_zero_of_all pth (fun c hc => pathChar_ne_lbrace c (hpall c hc))
    simp only [List.count_cons, List.count_append, hcw1, hcw2, hcp]
    decide


theorem findTokenAux_sound :
    ∀ (l : Str) (i s e : ℕ) (p : Str), findTokenAux i l = some (s, p, e) →
      i ≤ s ∧ s < e ∧ e ≤ i + l.length ∧
        ((l.drop (s - i)).take (e - s)).count lbrace = 2 ∧
        (∀ c ∈ p, isPathChar c = true) ∧ p ≠ [] := by
  intro l
  induction l with
  | nil => intro i s e p h; simp [findTokenAux] at h
  | cons c rest ih =>
    intro i s e p h
    rw [findTokenAux] at h
    cases htok : tokenAt (c :: rest) with
    | some res =>
      rw [htok] at h
      obtain ⟨pth, len⟩ := res
      injection h with h1
      injection h1 with hs h2
      injection h2 with hp he
      subst hs
      subst hp
      subst he
      obtain ⟨hpos, hle, hcount, hpall, hpne⟩ := tokenAt_sound (c :: rest) pth len htok
      refine ⟨le_refl i, by omega,
        by simp only [List.length_cons] at hle ⊢; omega, ?_, hpall, hpne⟩
      simp only [Nat.sub_self, List.drop_zero, Nat.add_sub_cancel_left]
      exact hcount
    | none =>
      rw [htok] at h
      obtain ⟨h1, h2, h3, h4, h5, h6⟩ := ih (i + 1) s e p h
      refine ⟨by omega, h2, by simp only [List.length_cons]; omega, ?_, h5, h6⟩
      have hdrop : (c :: rest).drop (s - i) = rest.drop (s - (i + 1)) := by
        rw [show s - i = (s - (i + 1)) + 1 by omega]
        rw [List.drop_succ_cons]
      rw [hdrop]
      exact h4

theorem findToken_sound (t : Str) (s e : ℕ) (p : Str)
    (h : findToken t = some (s, p, e)) :
    s < e ∧ e ≤ t.length ∧ ((t.drop s).take (e - s)).count lbrace = 2 ∧
      (∀ c ∈ p, isPathChar c = true) ∧ p ≠ [] := by
  obtain ⟨h1, h2, h3, h4, h5, h6⟩ := findTokenAux_sound t 0 s e p h
  exact ⟨h2, by simpa using h3, by simpa using h4, h5, h6⟩

/-- The brace count of a text splits around an interior segment. -/
theorem count_split (t : Str) (s e : ℕ) (hse : s ≤ e) :
    t.count lbrace = (t.take s).count lbrace +
      ((t.drop s).take (e - s)).count lbrace + (t.drop e).count lbrace := by
  have h2 : (t.drop s).count lbrace =
      ((t.drop s).take (e - s)).count lbrace + (t.drop e).count lbrace := by
    conv_lhs => rw [← List.take_append_drop (e - s) (t.drop s)]
    rw [List.count_append, List.drop_drop, show s + (e - s) = e by omega]
  conv_lhs => rw [← List.take_append_drop s t]
  rw [List.count_append, h2]
  omega

/-- The loop-exit component of `prStep` does not depend on the missing set. -/
theorem prStep_fst_congr (inputs : PyVal) (runs : List Str) (m m' : List Str) :
    (prStep inputs runs m).1 = (prStep inputs runs m').1 := by
  unfold prStep
  cases findToken runs.flatten with
  | none => rfl
  | some v =>
    obtain ⟨s, p, e⟩ := v
    show (match spliceRuns runs s e (resolvePath inputs p) with
      | none => ((none : Option (List Str)),
          if (str "[[MISSING:").isPrefixOf (resolvePath inputs p) then
            addMissing m p else m)
      | some runs' => (some runs',
          if (str "[[MISSING:").isPrefixOf (resolvePath inputs p) then
            addMissing m p else m)).1 =
      (match spliceRuns runs s e (resolvePath inputs p) with
      | none => ((none : Option (List Str)),
          if (str "[[MISSING:").isPrefixOf (resolvePath inputs p) then
            addMissing m' p else m')
      | some runs' => (some runs',
          if (str "[[MISSING:").isPrefixOf (resolvePath inputs p) then
            addMissing m' p else m')).1
    cases spliceRuns runs s e (resolvePath inputs p) <;> rfl

/-- Each continuing iteration of the placeholder rewrite loop strictly
decreases the number of opening braces, provided every resolvable
replacement carries at most one. -/
theorem prStep_decreases (inputs : PyVal) (runs runs' : List Str)
    (missing m' : List Str)
    (H : ∀ p : Str, (∀ c ∈ p, isPathChar c = true) →
      (resolvePath inputs p).count lbrace ≤ 1)
    (h : prStep inputs runs missing = (some runs', m')) :
    countBrace runs'.flatten < countBrace runs.flatten := by
  unfold prStep at h
  cases hf : findToken runs.flatten with
  | none => rw [hf] at h; exact absurd h (by simp)
  | some v =>
    obtain ⟨s, p, e⟩ := v
    rw [hf] at h
    obtain ⟨hse, hle, hmid, hpall, hpne⟩ := findToken_sound _ _ _ _ hf
    replace h : (match spliceRuns runs s e (resolvePath inputs p) with
      | none => ((none : Option (List Str)),
          if (str "[[MISSING:").isPrefixOf (resolvePath inputs p) then
            addMissing missing p else missing)
      | some runs1 => (some runs1,
          if (str "[[MISSING:").isPrefixOf (resolvePath inputs p) then
            addMissing missing p else missing)) = (some runs', m') := h
    cases hsp : spliceRuns runs s e (resolvePath inputs p) with
    | none => rw [hsp] at h; exact absurd h (by simp)
    | some rs =>
      rw [hsp] at h
      have hrs : rs = runs' := by
        injection h with h1 h2
        injection h1
      subst hrs
      obtain ⟨rs', hsp', hjoin, _⟩ :=
        splice_join runs s e (resolvePath inputs p) hse hle
      rw [hsp'] at hsp
      injection hsp with hsp
      subst hsp
      unfold countBrace
      rw [hjoin, List.count_append, List.count_append]
      have hrepl := H p hpall
      have hsplit := count_split runs.flatten s e (by omega)
      omega

/-- After at most `countBrace + 1` iterations the placeholder rewrite loop
is quiescent: the next step finds no further match. -/
theorem prLoop_reaches_fixpoint (inputs : PyVal)
    (H : ∀ p : Str, (∀ c ∈ p, isPathChar c = true) →
      (resolvePath inputs p).count lbrace ≤ 1) :
    ∀ (n : ℕ) (runs missing : List Str), countBrace runs.flatten ≤ n →
      (prStep inputs (prLoop inputs (n + 1) runs missing).1
        (prLoop inputs (n + 1) runs missing).2).1 = none := by
  intro n
  induction n with
  | zero =>
    intro runs missing hc
    rw [prLoop]
    cases hs : prStep inputs runs missing with
    | mk o m =>
      cases o with
      | none =>
        show (prStep inputs runs m).1 = none
        rw [prStep_fst_congr inputs runs m missing, hs]
      | some runs' =>
        exact absurd (prStep_decreases inputs runs runs' missing m H hs) (by omega)
  | succ n ih =>
    intro runs missing hc
    rw [prLoop]
    cases hs : prStep inputs runs missing with
    | mk o m =>
      cases o with
      | none =>
        show (prStep inputs runs m).1 = none
        rw [prStep_fst_congr inputs runs m missing, hs]
      | some runs' =>
        have hdec := prStep_decreases inputs runs runs' missing m H hs
        exact ih runs' m (by omega)

theorem splitOnChar_ne_nil (c : Char) : ∀ l : Str, splitOnChar c l ≠ [] := by
  intro l
  induction l with
  | nil => simp [splitOnChar]
  | cons a rest ih =>
    rw [splitOnChar]
    by_cases h : a = c
    · simp [h]
    · rw [if_neg h]
      cases htail : splitOnChar c rest with
      | nil => simp
      | cons t ts => simp

/-- `_resolve_path` on an empty mapping always yields the missing marker. -/
theorem resolvePath_empty_dict (p : Str) :
    resolvePath (.pdict []) p = missingMarker p := by
  unfold resolvePath
  cases hsp : splitOnChar '.' p with
  | nil => exact absurd hsp (splitOnChar_ne_nil '.' p)
  | cons a parts => simp [resolvePathGo, lookupStr]

/-- Code-side resolution agrees with the spec-side description. -/
theorem resolvePathGo_eq_walk : ∀ (parts : List Str) (data : PyVal) (path : Str),
    resolvePathGo data parts path =
      (match walkPath data parts with
       | none => missingMarker path
       | some v =>
         if v.isNone then missingMarker path
         else if pyStrip (pyStr v) = [] then missingMarker path
         else pyStrip (pyStr v)) := by
  intro parts
  induction parts with
  | nil =>
    intro data path
    cases data <;> rfl
  | cons p ps ih =>
    intro data path
    cases data with
    | pdict entries =>
      simp only [resolvePathGo, walkPath]
      cases lookupStr entries p with
      | none => rfl
      | some v =>
        simp only [Option.some_bind]
        exact ih v path
    | pnone => rfl
    | pstr s => rfl
    | pint z => rfl
    | pdec d => rfl

theorem marker_starts_with_missing (p : Str) :
    (str "[[MISSING:").isPrefixOf (missingMarker p) = true := by
  unfold missingMarker
  rw [show str "[[MISSING: " ++ p ++ str "]]" =
    str "[[MISSING:" ++ (' ' :: p ++ str "]]") from rfl]
  exact List.isPrefixOf_iff_prefix.mpr (List.prefix_append _ _)

theorem mem_addMissing (missing : List Str) (p : Str) : p ∈ addMissing missing p := by
  unfold addMissing
  by_cases h : missing.contains p
  · rw [if_pos h]
    simpa using h
  · rw [if_neg h]
    simp

/-! ## Claim theorems -/

/-- Claim C1 (code-bug evaluation): with both price bounds parsing and
low < high (low = 1.30, high = 1.50), `normalize_inputs` renders
`offer.price_range` with the double-encoded separator bytes that read as
`â€“`, not the en dash that the spec (and the repository's own test
`test_format_price_range_aed_matches_required_output`) requires. -/
theorem claim_c1_price_range_mojibake :
    renderedField (str "talabat_v1")
      (.pdict [(str "offer", .pdict
        [(str "price_range_low_aed", .pstr (str "1.30")),
         (str "price_range_high_aed", .pstr (str "1.50"))])])
      (str "offer.price_range") = some (str "AED 1.30 â€“ AED 1.50") ∧
    str "AED 1.30 â€“ AED 1.50" ≠ str "AED 1.30 – AED 1.50" := by
  constructor
  · decide
  · decide

/-- Claim C7 counterexample: `format_currency_aed` does not render with two
decimal places — at input 5 it yields `AED 5`, not `AED 5.00`. -/
theorem claim_c7_counterexample :
    formatCurrencyAed ⟨5, 0⟩ = str "AED 5" ∧ str "AED 5" ≠ str "AED 5.00" := by
  constructor
  · decide
  · decide

/-- Claim C7 (amended): inside `normalize_inputs`, the single currency
amount `offer.nominal_value_per_share` renders as `"AED "` followed by
the two-decimal-place formatting of `float(value)` — the parsed decimal
converted to the nearest double and rounded to two places, ties to even
— for every numeric value that parses; the helper `format_currency_aed`
instead drops decimals on integral amounts. -/
theorem claim_c7_nominal_renders_two_decimals (raw : PyVal) (d : Dec)
    (h1 : (deepGet raw (str "offer.nominal_value_per_share_aed")).isNone = false)
    (h2 : pyStrip (pyStr (deepGet raw (str "offer.nominal_value_per_share_aed"))) ≠ [])
    (h3 : normalizeDecimal (deepGet raw (str "offer.nominal_value_per_share_aed")) =
      some d) :
    renderedField (str "talabat_v1") raw (str "offer.nominal_value_per_share") =
      some (str "AED " ++ fmt2 (floatOfDec d)) := by
  unfold renderedField normalizeInputs
  rw [if_pos rfl]
  show lookupRendered (normalizeRenderedMap raw).1 (str "offer.nominal_value_per_share") =
    some (str "AED " ++ fmt2 (floatOfDec d))
  rw [lookup_nominal raw, nominalText_eq raw d h1 h2 h3,
    renderOrMissing_of_some _ _ (by
      show pyStrip ('A' :: (str "ED " ++ fmt2 (floatOfDec d))) ≠ []
      exact pyStrip_ne_nil_of_head 'A' _ (by decide))]

/-- Claim C7 witness: through `normalize_inputs`, a value of 5 renders
as `AED 5.00`, a value of 1.5 as `AED 1.50`, and the string `"2.675"` as
`AED 2.67` — the nearest double to 2.675 lies just below the tie, so the
two-place rounding goes down, exactly as CPython renders it. -/
theorem claim_c7_witness :
    renderedField (str "talabat_v1")
      (.pdict [(str "offer", .pdict [(str "nominal_value_per_share_aed", .pint 5)])])
      (str "offer.nominal_value_per_share") = some (str "AED 5.00") ∧
    renderedField (str "talabat_v1")
      (.pdict [(str "offer", .pdict
        [(str "nominal_value_per_share_aed", .pdec ⟨15, 1⟩)])])
      (str "offer.nominal_value_per_share") = some (str "AED 1.50") ∧
    renderedField (str "talabat_v1")
      (.pdict [(str "offer", .pdict
        [(str "nominal_value_per_share_aed", .pstr (str "2.675"))])])
      (str "offer.nominal_value_per_share") = some (str "AED 2.67") := by
  refine ⟨?_, ?_, ?_⟩
  · rw [claim_c7_nominal_renders_two_decimals _ ⟨5, 0⟩ (by decide) (by decide)
      (by decide)]
    decide
  · rw [claim_c7_nominal_renders_two_decimals _ ⟨15, 1⟩ (by decide) (by decide)
      (by decide)]
    decide
  · rw [claim_c7_nominal_renders_two_decimals _ ⟨2675, 3⟩ (by decide) (by decide)
      (by decide)]
    decide

/-- Claim C10: every numeric percentage input that parses renders as the
normalized decimal — trailing fractional zeros stripped, no decimal point
for whole numbers — followed by `%` (`specPercentRender` states that rule
directly; `format_percent` realises it). -/
theorem claim_c10_percent_normalized (raw : PyVal) (d : Dec)
    (h1 : (deepGet raw (str "offer.percentage_offered")).isNone = false)
    (h2 : pyStrip (pyStr (deepGet raw (str "offer.percentage_offered"))) ≠ [])
    (h3 : normalizeDecimal (deepGet raw (str "offer.percentage_offered")) = some d) :
    renderedField (str "talabat_v1") raw (str "offer.percentage_offered") =
      some (specPercentRender d) := by
  unfold renderedField normalizeInputs
  rw [if_pos rfl]
  show lookupRendered (normalizeRenderedMap raw).1 (str "offer.percentage_offered") =
    some (specPercentRender d)
  rw [lookup_percent raw, percentText_eq raw d h1 h2 h3, ← formatPercent_eq_spec]
  apply congrArg
  apply renderOrMissing_of_some
  apply pyStrip_ne_nil_of_mem '%'
  · unfold formatPercent
    simp
  · decide

/-- Claim C10 witness: 15 renders as `15%`, 15.5 as `15.5%` and 15.50 as
`15.5%` through `normalize_inputs`. -/
theorem claim_c10_witness :
    renderedField (str "talabat_v1")
      (.pdict [(str "offer", .pdict [(str "percentage_offered", .pstr (str "15"))])])
      (str "offer.percentage_offered") = some (str "15%") ∧
    renderedField (str "talabat_v1")
      (.pdict [(str "offer", .pdict [(str "percentage_offered", .pstr (str "15.5"))])])
      (str "offer.percentage_offered") = some (str "15.5%") ∧
    renderedField (str "talabat_v1")
      (.pdict [(str "offer", .pdict [(str "percentage_offered", .pstr (str "15.50"))])])
      (str "offer.percentage_offered") = some (str "15.5%") := by
  refine ⟨?_, ?_, ?_⟩
  · rw [claim_c10_percent_normalized _ ⟨15, 0⟩ (by decide) (by decide) (by decide)]
    decide
  · rw [claim_c10_percent_normalized _ ⟨155, 1⟩ (by decide) (by decide) (by decide)]
    decide
  · rw [claim_c10_percent_normalized _ ⟨1550, 2⟩ (by decide) (by decide) (by decide)]
    decide


/-- Claim C2: for every paragraph (a list of run texts) and every
pattern/replacement pair — any sound match oracle `find` — the rewrite
loop's concatenated run text equals the flat text with every matched span
replaced (the same replacement loop run on the flat text), and the number
of runs never increases. -/
theorem claim_c2_rewrite_refinement (find : Find) (hv : ValidFind find) (r : Str) :
    ∀ (fuel : ℕ) (runs : List Str),
      (rewriteLoop find r fuel runs).flatten = textLoop find r fuel runs.flatten ∧
      (rewriteLoop find r fuel runs).length ≤ runs.length := by
  intro fuel
  induction fuel with
  | zero => intro runs; exact ⟨rfl, le_refl _⟩
  | succ fuel ih =>
    intro runs
    rw [rewriteLoop, textLoop]
    unfold rewriteStep textStep
    cases hf : find runs.flatten with
    | none => exact ⟨rfl, le_refl _⟩
    | some se =>
      obtain ⟨s, e⟩ := se
      obtain ⟨hse, hle⟩ := hv _ _ _ hf
      obtain ⟨runs1, hsp, hjoin, hlen⟩ := splice_join runs s e r hse hle
      show ((match spliceRuns runs s e r with
          | none => runs
          | some rs => rewriteLoop find r fuel rs).flatten =
          textLoop find r fuel
            (List.take s runs.flatten ++ r ++ List.drop e runs.flatten)) ∧
        (match spliceRuns runs s e r with
          | none => runs
          | some rs => rewriteLoop find r fuel rs).length ≤ runs.length
      rw [hsp]
      rw [← hjoin]
      obtain ⟨ih1, ih2⟩ := ih runs1
      exact ⟨ih1, le_trans ih2 (le_of_eq hlen)⟩

/-- Claim C2 witness: a literal pattern `ab` split across two runs is
rewritten exactly as on the flat text, and the run count does not grow. -/
theorem claim_c2_witness :
    (rewriteLoop (findSub (str "ab")) (str "XY") 3 [str "za", str "bc"]).flatten =
      textLoop (findSub (str "ab")) (str "XY") 3 ([str "za", str "bc"] : List Str).flatten ∧
    (rewriteLoop (findSub (str "ab")) (str "XY") 3 [str "za", str "bc"]).length ≤
      ([str "za", str "bc"] : List Str).length :=
  claim_c2_rewrite_refinement (findSub (str "ab")) (findSub_valid _ (by decide))
    (str "XY") 3 [str "za", str "bc"]

/-- Claim C9 (amended): the placeholder rewrite loop reaches a match-free
state within `countBrace + 1` iterations whenever every replacement that
resolution can produce for a token path carries at most one opening brace.
(As stated the claim is false: a replacement containing a full token makes
the loop body return its own input forever — see the counterexample.) -/
theorem claim_c9_loop_termination (inputs : PyVal)
    (H : ∀ p : Str, (∀ c ∈ p, isPathChar c = true) →
      (resolvePath inputs p).count lbrace ≤ 1)
    (runs missing : List Str) :
    (prStep inputs (prLoop inputs (countBrace runs.flatten + 1) runs missing).1
      (prLoop inputs (countBrace runs.flatten + 1) runs missing).2).1 = none :=
  prLoop_reaches_fixpoint inputs H (countBrace runs.flatten) runs missing (le_refl _)

/-- Claim C9 counterexample: when the value stored for path `x` is itself
the token `{{x}}`, one iteration of `_replace_in_runs` returns exactly the
state it started from while a match is still present, so the `while True`
loop never exits; likewise for the parameterizer loop when a rule pattern
matches its own placeholder. -/
theorem claim_c9_counterexample :
    prStep (.pdict [(str "x", .pstr (str "\x7b\x7bx\x7d\x7d"))])
      [str "\x7b\x7bx\x7d\x7d"] [] = (some [str "\x7b\x7bx\x7d\x7d"], []) ∧
    rewriteStep (findSub (str "\x7b\x7bissuer.name\x7d\x7d"))
      (str "\x7b\x7bissuer.name\x7d\x7d") [str "\x7b\x7bissuer.name\x7d\x7d"] =
      some [str "\x7b\x7bissuer.name\x7d\x7d"] := by
  constructor
  · decide
  · decide

/-- Claim C9 witness: with an empty value mapping (every resolution yields
the brace-free missing marker) the loop over `{{a}}` is quiescent within
the brace bound. -/
theorem claim_c9_witness :
    (prStep (.pdict []) (prLoop (.pdict [])
        (countBrace ([str "\x7b\x7ba\x7d\x7d"] : List Str).flatten + 1)
        [str "\x7b\x7ba\x7d\x7d"] []).1
      (prLoop (.pdict [])
        (countBrace ([str "\x7b\x7ba\x7d\x7d"] : List Str).flatten + 1)
        [str "\x7b\x7ba\x7d\x7d"] []).2).1 = none := by
  apply claim_c9_loop_termination
  intro p hp
  rw [resolvePath_empty_dict p]
  unfold missingMarker
  rw [List.count_append, List.count_append]
  have h0 : p.count lbrace = 0 :=
    count_lbrace_zero_of_all p (fun c hc => pathChar_ne_lbrace c (hp c hc))
  rw [h0]
  rw [show List.count lbrace (str "[[MISSING: ") = 0 from by decide]
  rw [show List.count lbrace (str "]]") = 0 from by decide]
  omega

/-- Claim C6: path resolution is total and never raises — it equals the
spec-side rule (the stripped string coercion when every segment is present
in a mapping, the final value is non-null and the coercion is non-blank;
the literal missing marker otherwise), and whenever a found token's path
resolves to the missing marker the path is recorded in the missing set. -/
theorem claim_c6_resolution :
    (∀ (data : PyVal) (path : Str), resolvePath data path = resolveSpec data path) ∧
    (∀ (inputs : PyVal) (runs missing : List Str) (s e : ℕ) (p : Str),
      findToken runs.flatten = some (s, p, e) →
      resolvePath inputs p = missingMarker p →
      p ∈ (prStep inputs runs missing).2) := by
  constructor
  · intro data path
    unfold resolvePath resolveSpec
    exact resolvePathGo_eq_walk (splitOnChar '.' path) data path
  · intro inputs runs missing s e p hf hres
    unfold prStep
    rw [hf]
    show p ∈ (match spliceRuns runs s e (resolvePath inputs p) with
      | none => ((none : Option (List Str)),
          if (str "[[MISSING:").isPrefixOf (resolvePath inputs p) then
            addMissing missing p else missing)
      | some runs1 => (some runs1,
          if (str "[[MISSING:").isPrefixOf (resolvePath inputs p) then
            addMissing missing p else missing)).2
    rw [hres]
    cases spliceRuns runs s e (missingMarker p) with
    | none =>
      show p ∈ (if (str "[[MISSING:").isPrefixOf (missingMarker p) then
        addMissing missing p else missing)
      rw [if_pos (marker_starts_with_missing p)]
      exact mem_addMissing missing p
    | some runs1 =>
      show p ∈ (if (str "[[MISSING:").isPrefixOf (missingMarker p) then
        addMissing missing p else missing)
      rw [if_pos (marker_starts_with_missing p)]
      exact mem_addMissing missing p

/-- Claim C6 witness: a present leading/trailing-space value resolves to its
stripped form (agreeing with the spec rule), and an unresolvable token path
is recorded in the missing set. -/
theorem claim_c6_witness :
    resolvePath (.pdict [(str "a", .pstr (str " v "))]) (str "a") =
      resolveSpec (.pdict [(str "a", .pstr (str " v "))]) (str "a") ∧
    (str "a.b") ∈ (prStep (.pdict []) [str "\x7b\x7ba.b\x7d\x7d"] []).2 := by
  constructor
  · exact claim_c6_resolution.1 (.pdict [(str "a", .pstr (str " v "))]) (str "a")
  · exact claim_c6_resolution.2 (.pdict []) [str "\x7b\x7ba.b\x7d\x7d"] [] 0 7
      (str "a.b") (by decide) (by decide)

/-! ## Parameterizer gating lemmas -/

theorem applyRuleBlock_not_allowed (ru : RuleM) (allowed : List Str)
    (fuel : ℕ) (loc : Str) (runs : List Str) (hne : allowed ≠ [])
    (hl : locAllowed allowed loc = false) :
    (applyRuleBlock ru allowed fuel loc runs).1 = runs := by
  have hcond : (!(allowed.isEmpty) && !(locAllowed allowed loc)) = true := by
    simp [hl, List.isEmpty_iff, hne]
  unfold applyRuleBlock
  by_cases h1 : (ru.hasCtx && !(ru.ctx runs.flatten)) = true
  · rw [if_pos h1]
  · rw [if_neg h1]
    by_cases h2 : ru.countM runs.flatten = 0
    · rw [if_pos h2]
    · rw [if_neg h2, if_pos hcond]

theorem applyRuleBlock_skipped (ru : RuleM) (allowed : List Str)
    (fuel : ℕ) (loc : Str) (runs : List Str) (hne : allowed ≠ []) :
    (applyRuleBlock ru allowed fuel loc runs).2.2.2 =
      if (ru.hasCtx = false ∨ ru.ctx runs.flatten = true) ∧
          ru.countM runs.flatten ≠ 0 ∧ locAllowed allowed loc = false then
        ru.countM runs.flatten
      else 0 := by
  unfold applyRuleBlock
  by_cases h1 : (ru.hasCtx && !(ru.ctx runs.flatten)) = true
  · have hno : ¬((ru.hasCtx = false ∨ ru.ctx runs.flatten = true) ∧
        ru.countM runs.flatten ≠ 0 ∧ locAllowed allowed loc = false) := by
      simp only [Bool.and_eq_true, Bool.not_eq_true'] at h1
      rintro ⟨hor, -, -⟩
      rcases hor with hc | hc
      · rw [h1.1] at hc; cases hc
      · rw [h1.2] at hc; cases hc
    rw [if_pos h1, if_neg hno]
  · rw [if_neg h1]
    by_cases h2 : ru.countM runs.flatten = 0
    · have hno : ¬((ru.hasCtx = false ∨ ru.ctx runs.flatten = true) ∧
          ru.countM runs.flatten ≠ 0 ∧ locAllowed allowed loc = false) := by
        rintro ⟨-, hne0, -⟩; exact hne0 h2
      rw [if_pos h2, if_neg hno]
    · rw [if_neg h2]
      by_cases h3 : locAllowed allowed loc = false
      · have hcondb : (!(allowed.isEmpty) && !(locAllowed allowed loc)) = true := by
          simp [h3, List.isEmpty_iff, hne]
        have hyes : (ru.hasCtx = false ∨ ru.ctx runs.flatten = true) ∧
            ru.countM runs.flatten ≠ 0 ∧ locAllowed allowed loc = false := by
          refine ⟨?_, h2, h3⟩
          simp only [Bool.and_eq_true, Bool.not_eq_true'] at h1
          by_cases hc : ru.hasCtx = true
          · right
            cases hctx : ru.ctx runs.flatten with
            | false => exact absurd ⟨hc, hctx⟩ h1
            | true => rfl
          · left; exact Bool.eq_false_iff.mpr hc
        rw [if_pos hcondb, if_pos hyes]
      · have h3' : locAllowed allowed loc = true := by
          cases hl : locAllowed allowed loc with
          | false => exact absurd hl h3
          | true => rfl
        have hcondb : ¬((!(allowed.isEmpty) && !(locAllowed allowed loc)) = true) := by
          simp [h3']
        have hno : ¬((ru.hasCtx = false ∨ ru.ctx runs.flatten = true) ∧
            ru.countM runs.flatten ≠ 0 ∧ locAllowed allowed loc = false) := by
          rintro ⟨-, -, hl⟩; exact h3 hl
        rw [if_neg hcondb, if_neg hno]

/-- Claim C4 (amended): with a nonempty allowed-location set, every block
whose location fails the allowed test keeps exactly its runs (no
replacement is applied there) — so replacements land only in allowed
blocks — and the rule's skipped count is exactly the total of matches
found in context-passing non-allowed blocks.  (As stated the claim is
false for the empty set: the source guards the whole location check with
a truthiness test of the set, so an empty set disables the gate and
replaces everywhere — see the counterexample.) -/
theorem claim_c4_allowed_gating (ru : RuleM) (allowed : List Str)
    (hne : allowed ≠ []) (fuel : ℕ) (doc : List Block) :
    List.Forall₂ (fun b c : Block => c.1 = b.1 ∧
        (locAllowed allowed b.1 = false → c = b))
      doc (applyRule ru allowed fuel doc).1 ∧
    (applyRule ru allowed fuel doc).2.2.2 = skippedSpec ru allowed doc := by
  induction doc with
  | nil => exact ⟨List.Forall₂.nil, rfl⟩
  | cons b rest ih =>
    constructor
    · refine List.Forall₂.cons ⟨rfl, ?_⟩ ih.1
      intro hl
      have hr := applyRuleBlock_not_allowed ru allowed fuel b.1 b.2 hne hl
      show (b.1, (applyRuleBlock ru allowed fuel b.1 b.2).1) = b
      rw [hr]
    · show (applyRuleBlock ru allowed fuel b.1 b.2).2.2.2 +
          (applyRule ru allowed fuel rest).2.2.2 = skippedSpec ru allowed (b :: rest)
      rw [applyRuleBlock_skipped ru allowed fuel b.1 b.2 hne, ih.2]
      rfl

/-- Claim C4 counterexample: with the empty allowed set, a match in a
block whose location is in no allowed path is replaced anyway (the run
text changes and nothing is booked as skipped). -/
theorem claim_c4_counterexample :
    locAllowed [] (str "document/paragraphs/0") = false ∧
    (applyRule demoRule [] 2 [(str "document/paragraphs/0", [str "zab"])]).1 =
      [(str "document/paragraphs/0", [str "zX"])] ∧
    (applyRule demoRule [] 2 [(str "document/paragraphs/0", [str "zab"])]).2.2.2 = 0 ∧
    (applyRule demoRule [] 2 [(str "document/paragraphs/0", [str "zab"])]).2.1 = 1 := by
  decide

/-- Claim C4 witness: a two-block document with one allowed location;
the theorem applied at it shows the non-allowed block untouched and the
skipped total as specified. -/
theorem claim_c4_witness :
    List.Forall₂ (fun b c : Block => c.1 = b.1 ∧
        (locAllowed [str "document/paragraphs/0"] b.1 = false → c = b))
      [(str "document/paragraphs/0", [str "zab"]),
       (str "document/paragraphs/1", [str "zab"])]
      (applyRule demoRule [str "document/paragraphs/0"] 2
        [(str "document/paragraphs/0", [str "zab"]),
         (str "document/paragraphs/1", [str "zab"])]).1 ∧
    (applyRule demoRule [str "document/paragraphs/0"] 2
      [(str "document/paragraphs/0", [str "zab"]),
       (str "document/paragraphs/1", [str "zab"])]).2.2.2 =
      skippedSpec demoRule [str "document/paragraphs/0"]
        [(str "document/paragraphs/0", [str "zab"]),
         (str "document/paragraphs/1", [str "zab"])] :=
  claim_c4_allowed_gating demoRule [str "document/paragraphs/0"] (by decide) 2
    [(str "document/paragraphs/0", [str "zab"]),
     (str "document/paragraphs/1", [str "zab"])]

/-! ## Parameterize-from-source error lemmas -/

theorem map_update_sum (rep : Str → ℕ) (f : Str) (n : ℕ) :
    ∀ (fields : List Str), fields.count f = 1 →
      (fields.map (fun x => if x = f then n else rep x)).sum + rep f =
        (fields.map rep).sum + n := by
  intro fields
  induction fields with
  | nil => intro h; simp at h
  | cons a t ih =>
    intro h
    by_cases ha : a = f
    · subst ha
      have ht : t.count a = 0 := by
        rw [List.count_cons_self] at h; omega
      have hnot : a ∉ t := by rwa [← List.count_eq_zero]
      have hmap : t.map (fun x => if x = a then n else rep x) = t.map rep := by
        apply List.map_congr_left
        intro x hx
        by_cases hxa : x = a
        · subst hxa; exact absurd hx hnot
        · rw [if_neg hxa]
      simp only [List.map_cons, List.sum_cons, hmap, eq_self_iff_true, if_true]
      omega
    · have ht : t.count f = 1 := by
        rw [List.count_cons] at h
        simp [ha] at h
        exact h
      have ih' := ih ht
      simp only [List.map_cons, List.sum_cons, if_neg ha]
      omega

theorem runRules_sum (allowed : List Str) (fuel : ℕ) (fields : List Str) :
    ∀ (rules : List (Str × RuleM)) (doc : List Block) (rep : Str → ℕ),
      (rules.map Prod.fst).Nodup →
      (∀ q ∈ rules, fields.count q.1 = 1) →
      (fields.map (runRules allowed fuel rules doc rep).2).sum +
          (rules.map (fun q => rep q.1)).sum =
        rulesReplacedSum allowed fuel rules doc + (fields.map rep).sum := by
  intro rules
  induction rules with
  | nil => intro doc rep _ _; simp [runRules, rulesReplacedSum]
  | cons q rest ih =>
    intro doc rep hnd hcnt
    have hq : q.1 ∉ rest.map Prod.fst := by
      simp only [List.map_cons] at hnd
      exact (List.nodup_cons.mp hnd).1
    have hnd' : (rest.map Prod.fst).Nodup := by
      simp only [List.map_cons] at hnd
      exact (List.nodup_cons.mp hnd).2
    have ih' := ih (applyRule q.2 allowed fuel doc).1
      (fun x => if x = q.1 then (applyRule q.2 allowed fuel doc).2.2.1 else rep x)
      hnd' (fun r hr => hcnt r (List.mem_cons_of_mem _ hr))
    have heq : (rest.map (fun r =>
        (fun x => if x = q.1 then (applyRule q.2 allowed fuel doc).2.2.1
          else rep x) r.1)).sum =
        (rest.map (fun r => rep r.1)).sum := by
      congr 1
      apply List.map_congr_left
      intro r hr
      have : r.1 ≠ q.1 := fun he => hq (he ▸ List.mem_map_of_mem Prod.fst hr)
      simp [this]
    have hupd := map_update_sum rep q.1 (applyRule q.2 allowed fuel doc).2.2.1
      fields (hcnt q (List.mem_cons_self q rest))
    show (fields.map (runRules allowed fuel rest (applyRule q.2 allowed fuel doc).1
        (fun x => if x = q.1 then (applyRule q.2 allowed fuel doc).2.2.1
          else rep x)).2).sum +
        (rep q.1 + (rest.map (fun r => rep r.1)).sum) =
      ((applyRule q.2 allowed fuel doc).2.2.1 +
        rulesReplacedSum allowed fuel rest (applyRule q.2 allowed fuel doc).1) +
        (fields.map rep).sum
    rw [heq] at ih'
    omega

theorem baseNotFoundMsg_ne (tid : ℕ) : baseNotFoundMsg tid ≠ noPlaceholdersMsg := by
  intro h
  have h0 : (baseNotFoundMsg tid).head? = noPlaceholdersMsg.head? := by rw [h]
  have h1 : (baseNotFoundMsg tid).head? = some 'B' := rfl
  have h2 : noPlaceholdersMsg.head? = some 'N' := rfl
  rw [h1, h2] at h0
  simp at h0

/-- Claim C5: when the total replaced count across the rules is zero,
`parameterize_template_from_source` fails with exactly the
no-placeholders message — before any template document or record is
produced — and when at least one replacement was applied this error is
never raised.  The hypotheses record what `_build_rules` guarantees:
each rule carries a distinct field and each field is one report key. -/
theorem claim_c5_zero_replacement_error (fields : List Str)
    (rules : List (Str × RuleM)) (allowed : List Str) (fuel : ℕ)
    (doc : List Block) (dryRun baseFound : Bool) (tid : ℕ)
    (hnd : (rules.map Prod.fst).Nodup)
    (hcnt : ∀ q ∈ rules, fields.count q.1 = 1) :
    (parameterizeCore fields rules allowed fuel doc dryRun baseFound tid =
        .failed noPlaceholdersMsg ↔
      rulesReplacedSum allowed fuel rules doc = 0) ∧
    (rulesReplacedSum allowed fuel rules doc = 0 →
      ∀ (c : ℕ) (d : List Block),
        parameterizeCore fields rules allowed fuel doc dryRun baseFound tid ≠
          .savedTemplate c d) := by
  have hsum : (fields.map (runRules allowed fuel rules doc (fun _ => 0)).2).sum =
      rulesReplacedSum allowed fuel rules doc := by
    have h := runRules_sum allowed fuel fields rules doc (fun _ => 0) hnd hcnt
    simpa using h
  unfold parameterizeCore
  rw [hsum]
  by_cases hz : rulesReplacedSum allowed fuel rules doc = 0
  · rw [if_pos hz]
    exact ⟨⟨fun _ => hz, fun _ => rfl⟩,
      fun _ c d h => ParamOutcome.noConfusion h⟩
  · rw [if_neg hz]
    refine ⟨⟨?_, fun h => absurd h hz⟩, fun h => absurd h hz⟩
    intro h
    exfalso
    by_cases hd : dryRun = true
    · rw [if_pos hd] at h; exact ParamOutcome.noConfusion h
    · rw [if_neg hd] at h
      by_cases hb : baseFound = false
      · rw [if_pos hb] at h
        injection h with hm
        exact baseNotFoundMsg_ne tid hm
      · rw [if_neg hb] at h; exact ParamOutcome.noConfusion h

/-- Claim C5 witness: a one-rule, one-field instance on a document with
one replaceable match. -/
theorem claim_c5_witness :
    (parameterizeCore [str "issuer.name"] [(str "issuer.name", demoRule)]
        [str "document"] 2 [(str "document/paragraphs/0", [str "zab"])]
        false true 7 = .failed noPlaceholdersMsg ↔
      rulesReplacedSum [str "document"] 2 [(str "issuer.name", demoRule)]
        [(str "document/paragraphs/0", [str "zab"])] = 0) ∧
    (rulesReplacedSum [str "document"] 2 [(str "issuer.name", demoRule)]
        [(str "document/paragraphs/0", [str "zab"])] = 0 →
      ∀ (c : ℕ) (d : List Block),
        parameterizeCore [str "issuer.name"] [(str "issuer.name", demoRule)]
          [str "document"] 2 [(str "document/paragraphs/0", [str "zab"])]
          false true 7 ≠ .savedTemplate c d) :=
  claim_c5_zero_replacement_error [str "issuer.name"]
    [(str "issuer.name", demoRule)] [str "document"] 2
    [(str "document/paragraphs/0", [str "zab"])] false true 7
    (by decide) (by decide)

/-! ## Classifier lemmas -/

theorem dealHits_ne_of_issuer (text name : Str) (offerShares : Option ℤ)
    (hne : name ≠ []) (hsub : containsSub name text = true) :
    dealHits text (some name) offerShares ≠ [] := by
  intro hEmpty
  unfold dealHits at hEmpty
  simp only [List.append_eq_nil] at hEmpty
  replace hEmpty : (if name ≠ [] ∧ containsSub name text = true then
      [str "issuer_name_exact"]
    else if name ≠ [] ∧ containsSub (lowerStr name) (lowerStr text) = true then
      [str "issuer_name_casefold"]
    else []) = [] := hEmpty.1.1.1.1.1.1
  rw [if_pos ⟨hne, hsub⟩] at hEmpty
  cases hEmpty

/-- Claim C8: the classifier's decision rule — `mixed` exactly when a
deal signal and a boilerplate signal both fired, `deal_specific` exactly
when only deal signals fired, `boilerplate` exactly when no deal signal
fired — and in particular a block containing an exact (nonempty) issuer
name is never `boilerplate`, while a block with no deal signal (such as
one holding only a legal heading phrase) always is. -/
theorem claim_c8_classifier (text : Str) (issuerName : Option Str)
    (offerShares : Option ℤ) :
    (classifyBlock text issuerName offerShares = str "mixed" ↔
      dealHits text issuerName offerShares ≠ [] ∧ boilHits text ≠ []) ∧
    (classifyBlock text issuerName offerShares = str "deal_specific" ↔
      dealHits text issuerName offerShares ≠ [] ∧ boilHits text = []) ∧
    (classifyBlock text issuerName offerShares = str "boilerplate" ↔
      dealHits text issuerName offerShares = []) ∧
    (∀ name, issuerName = some name → name ≠ [] →
      containsSub name text = true →
      classifyBlock text issuerName offerShares ≠ str "boilerplate") := by
  unfold classifyBlock
  by_cases hd : dealHits text issuerName offerShares = []
  · rw [if_neg (fun hc => hc.1 hd), if_neg (fun hc => hc hd)]
    refine ⟨⟨fun h => absurd h (by decide), fun hc => absurd hd hc.1⟩,
      ⟨fun h => absurd h (by decide), fun hc => absurd hd hc.1⟩,
      ⟨fun _ => hd, fun _ => rfl⟩, ?_⟩
    intro name hn hne hsub _
    subst hn
    exact dealHits_ne_of_issuer text name offerShares hne hsub hd
  · by_cases hb : boilHits text = []
    · rw [if_neg (fun hc => hc.2 hb), if_pos hd]
      exact ⟨⟨fun h => absurd h (by decide), fun hc => absurd hb hc.2⟩,
        ⟨fun _ => ⟨hd, hb⟩, fun _ => rfl⟩,
        ⟨fun h => absurd h (by decide), fun hc => absurd hc hd⟩,
        fun name hn hne hsub h => absurd h (by decide)⟩
    · rw [if_pos ⟨hd, hb⟩]
      exact ⟨⟨fun _ => ⟨hd, hb⟩, fun _ => rfl⟩,
        ⟨fun h => absurd h (by decide), fun hc => absurd hc.2 hb⟩,
        ⟨fun h => absurd h (by decide), fun hc => absurd hc hd⟩,
        fun name hn hne hsub h => absurd h (by decide)⟩

/-- Claim C8 witness: a legal-heading-only block classifies as
boilerplate, an exact issuer-name block does not. -/
theorem claim_c8_witness :
    classifyBlock (str "Selling Restrictions") none none =
      str "boilerplate" ∧
    classifyBlock (str "Talabat Holding plc") (some (str "Talabat Holding plc"))
      none ≠ str "boilerplate" :=
  ⟨(claim_c8_classifier (str "Selling Restrictions") none none).2.2.1.mpr
      (by decide),
   (claim_c8_classifier (str "Talabat Holding plc")
       (some (str "Talabat Holding plc")) none).2.2.2
     (str "Talabat Holding plc") rfl (by decide) (by decide)⟩

/-- Claim C3: `normalize_inputs` does mutate the caller's raw mapping.
The caller's root dictionary sits at address 0 and its nested `offer`
mapping at address 1; `dict(raw)` copies only the top level, so the
`_deep_set` calls write through the shared reference: after the call the
nested mapping has gained `currency`, the rendered-field keys and a
stringified `offer_shares`, while the claim (and the spec) say it is
left equal to its pre-call value. -/
theorem claim_c3_raw_mutation :
    dictGet (heapGet [(0, [(str "offer", HVal.href 1)]),
        (1, [(str "offer_shares", HVal.hint 5)])] 0) (str "offer") =
      some (HVal.href 1) ∧
    heapGet [(0, [(str "offer", HVal.href 1)]),
        (1, [(str "offer_shares", HVal.hint 5)])] 1 =
      [(str "offer_shares", HVal.hint 5)] ∧
    heapGet (heapNormalizeInputs
        [(0, [(str "offer", HVal.href 1)]),
         (1, [(str "offer_shares", HVal.hint 5)])] 2 0).1 1 =
      [(str "offer_shares", HVal.hstr (str "5")),
       (str "currency", HVal.hstr (str "AED")),
       (str "price_range", HVal.hstr (missingMarker (str "offer.price_range"))),
       (str "nominal_value_per_share",
         HVal.hstr (missingMarker (str "offer.nominal_value_per_share"))),
       (str "percentage_offered",
         HVal.hstr (missingMarker (str "offer.percentage_offered"))),
       (str "offer_shares_words",
         HVal.hstr (missingMarker (str "offer.offer_shares_words"))),
       (str "size", HVal.hstr (str "5"))] ∧
    heapGet (heapNormalizeInputs
        [(0, [(str "offer", HVal.href 1)]),
         (1, [(str "offer_shares", HVal.hint 5)])] 2 0).1 1 ≠
      [(str "offer_shares", HVal.hint 5)] := by
  refine ⟨by decide, by decide, by decide, by decide⟩

end PA
